import Mathlib

/-!
A shallow embedding of the commit-log storage engine (store / index / segment / log)
of the distributed-log repository, together with theorems settling the frozen claims.

Modelling conventions:
* Go byte slices are `List Nat` (each element a byte value).
* Go `uint64` / `uint32` fields are `Nat`.  Wraparound is modelled explicitly
  (`% U64`, `% U32`) exactly at the arithmetic sites where the Go code performs a
  subtraction or narrowing conversion that the control flow depends on
  (`segment.Read`'s `off - baseOffset`, `index.Read`'s `uint32` casts and its
  `size/entWidth - 1`, `segment.Append`'s `uint32(nextOffset - baseOffset)`).
  Monotone counters (`size`, `nextOffset`) are plain `Nat`; reachability relations
  carry the uint64 / int64 range side conditions of the host types.
* File I/O is pure: a file is its byte contents; fallible operations return `Res`.
* The write buffer of the store is conflated with the file, which is sound because
  every read path in the source flushes the buffer first.
-/

namespace DistLog

/-- EOF sentinel and the offset-out-of-range error of the log API. -/
inductive Err where
  | eof
  | offsetOutOfRange (off : Nat)
deriving DecidableEq

/-- Result of a fallible operation (Go's `(value, error)` pair). -/
inductive Res (α : Type) where
  | ok (val : α)
  | err (e : Err)
deriving DecidableEq

/-- Width of a store frame's length prefix (store.go `lenWidth`). -/
def lenWidth : Nat := 8

/-- Width of an index entry's relative-offset field (index.go `offWidth`). -/
def offWidth : Nat := 4

/-- Width of an index entry's store-position field (index.go `posWidth`). -/
def posWidth : Nat := 8

/-- Width of one index entry (index.go `entWidth = offWidth + posWidth`). -/
def entWidth : Nat := offWidth + posWidth

/-- 2^32, the modulus of Go's `uint32`. -/
def U32 : Nat := 4294967296

/-- 2^64, the modulus of Go's `uint64`. -/
def U64 : Nat := 18446744073709551616

/-- 2^63, the first `uint64` value that is negative as an `int64`. -/
def I64 : Nat := 9223372036854775808

/-- Big-endian encoding of `v` into `w` bytes (Go `binary.BigEndian.PutUintNN`);
encodes `v % 256^w`. -/
def encBE (w v : Nat) : List Nat :=
  (List.range w).map (fun i => v / 256 ^ (w - 1 - i) % 256)

/-- Big-endian decoding of a byte list (Go `binary.BigEndian.UintNN`). -/
def decBE (l : List Nat) : Nat :=
  l.foldl (fun a b => a * 256 + b) 0

/-- Decode `w` bytes of `m` starting at position `p`, big-endian. -/
def readBE (m : List Nat) (p w : Nat) : Nat :=
  decBE ((m.drop p).take w)

/-- Overwrite the bytes of `m` at positions `[p, p + v.length)` with `v`
(a Go `copy` / `PutUintNN` into a slice of an mmap'd region). -/
def writeAt (m : List Nat) (p : Nat) (v : List Nat) : List Nat :=
  m.take p ++ v ++ m.drop (p + v.length)

/-- Per-segment limits and starting offset (config.go `Config.Segment`). -/
structure SegmentConfig where
  maxStoreBytes : Nat
  maxIndexBytes : Nat
  initialOffset : Nat
deriving DecidableEq

/-- Log configuration (config.go `Config`). -/
structure Config where
  segment : SegmentConfig
deriving DecidableEq

/-- The store: a file of length-prefixed frames plus the tracked byte count
(store.go `store`).  `bytes` is the file contents with the write buffer already
flushed; `size` is the `size` field. -/
structure Store where
  bytes : List Nat
  size : Nat
deriving DecidableEq

/-- store.go `newStore`: record the current file length as `size`. -/
def newStore (file : List Nat) : Store :=
  { bytes := file, size := file.length }

/-- store.go `store.Append`: remember `size` as the frame position, write the
8-byte big-endian length prefix and then the payload, advance `size` by
`lenWidth + len(p)`.  Returns `(bytesWritten, position, new store)`. -/
def storeAppend (s : Store) (p : List Nat) : Nat × Nat × Store :=
  let position := s.size
  let bytesWritten := lenWidth + p.length
  (bytesWritten, position,
    { bytes := s.bytes ++ encBE lenWidth p.length ++ p,
      size := s.size + bytesWritten })

/-- store.go `store.Read`: flush, read 8 bytes at `pos` as a length `n`, then read
`n` bytes at `pos + lenWidth`.  Go's `File.ReadAt` errors when fewer bytes than
requested are available. -/
def storeRead (s : Store) (pos : Nat) : Res (List Nat) :=
  if s.bytes.length < pos + lenWidth then .err .eof
  else
    let n := readBE s.bytes pos lenWidth
    if s.bytes.length < pos + lenWidth + n then .err .eof
    else .ok ((s.bytes.drop (pos + lenWidth)).take n)

/-- The index: the memory-mapped region and the live byte count
(index.go `index`).  `mmap` has the length the file was extended to. -/
structure Index where
  mmap : List Nat
  size : Nat
deriving DecidableEq

/-- index.go `newIndex`: record the file length as `size`, extend (or cut) the
file to `maxIndexBytes` zero-filling new bytes, and map the whole file. -/
def newIndex (file : List Nat) (c : Config) : Index :=
  { mmap := file.take c.segment.maxIndexBytes ++
      List.replicate (c.segment.maxIndexBytes - file.length) 0,
    size := file.length }

/-- index.go `index.Write`: fail with EOF when the mapped region has no room for
another entry, otherwise put `off` big-endian at `[size, size+offWidth)` and
`pos` big-endian at `[size+offWidth, size+entWidth)` and advance `size`. -/
def indexWrite (i : Index) (off pos : Nat) : Res Index :=
  if i.mmap.length < i.size + entWidth then .err .eof
  else
    .ok { mmap := writeAt (writeAt i.mmap i.size (encBE offWidth off))
            (i.size + offWidth) (encBE posWidth pos),
          size := i.size + entWidth }

/-- index.go `index.Read`: EOF on an empty index; `-1` selects the last entry via
`uint32((size / entWidth) - 1)` (a uint64 subtraction truncated to uint32); any
other argument is truncated to uint32; EOF when the selected entry lies past
`size`; otherwise decode the two big-endian fields. -/
def indexRead (i : Index) (inp : Int) : Res (Nat × Nat) :=
  if i.size = 0 then .err .eof
  else
    let out : Nat :=
      if inp = -1 then ((i.size / entWidth + (U64 - 1)) % U64) % U32
      else (inp % (U32 : Int)).toNat
    let pos := out * entWidth
    if i.size < pos + entWidth then .err .eof
    else .ok (readBE i.mmap pos offWidth, readBE i.mmap (pos + offWidth) posWidth)

/-- index.go `index.Close`: msync + fsync, then truncate the file back to `size`.
Returns the resulting on-disk file contents. -/
def indexCloseFile (i : Index) : List Nat :=
  i.mmap.take i.size

/-- A log record (api `Record`): opaque payload plus the offset assigned on append. -/
structure Record where
  value : List Nat
  offset : Nat
deriving DecidableEq

/-- Modelled from the spec: the external record codec (`proto.Marshal`).  The spec
treats records as "a byte blob plus offset metadata assigned immediately before
serialization"; the model serializes the offset as 8 big-endian bytes followed by
the payload, which is a faithful injective stand-in for the protobuf encoding. -/
def protoMarshal (r : Record) : List Nat :=
  encBE 8 r.offset ++ r.value

/-- Modelled from the spec: the external record codec (`proto.Unmarshal`),
inverse of `protoMarshal`. -/
def protoUnmarshal (p : List Nat) : Record :=
  { value := p.drop 8, offset := decBE (p.take 8) }

/-- A segment: one store plus one index with its offset bounds (segment.go `segment`). -/
structure Segment where
  store : Store
  index : Index
  baseOffset : Nat
  nextOffset : Nat
  config : Config
deriving DecidableEq

/-- segment.go `newSegment` on given on-disk file contents: open the store and the
index, then infer `nextOffset` by reading index entry `-1` — EOF means an empty
index (`nextOffset = baseOffset`), success yields
`nextOffset = baseOffset + lastRelativeOffset + 1`. -/
def newSegment (c : Config) (storeFile indexFile : List Nat) (baseOffset : Nat) : Segment :=
  let st := newStore storeFile
  let ix := newIndex indexFile c
  let next : Nat :=
    match indexRead ix (-1) with
    | .err _ => baseOffset
    | .ok (off, _) => baseOffset + off + 1
  { store := st, index := ix, baseOffset := baseOffset, nextOffset := next, config := c }

/-- segment.go `segment.Append`: stamp the record with `nextOffset`, marshal it,
append the bytes to the store, then write the index entry
`(uint32(nextOffset - baseOffset), position)`.  On an index-write error the store
mutation persists (the frame becomes unreferenced garbage) and `nextOffset` is
not advanced.  The uint32 narrowing of the uint64 subtraction is modelled
exactly. -/
def segmentAppend (s : Segment) (r : Record) : Res Nat × Segment :=
  let cur := s.nextOffset
  let p := protoMarshal { r with offset := cur }
  let app := storeAppend s.store p
  let relOff := (((s.nextOffset % U64) + U64 - (s.baseOffset % U64)) % U64) % U32
  match indexWrite s.index relOff app.2.1 with
  | .err e => (.err e, { s with store := app.2.2 })
  | .ok ix =>
      (.ok cur, { s with store := app.2.2, index := ix, nextOffset := s.nextOffset + 1 })

/-- segment.go `segment.Read`: look up `index.Read(int64(off - baseOffset))` —
the subtraction is uint64 arithmetic and the result is reinterpreted as int64
(two's complement), so `off = baseOffset - 1` becomes the `-1` sentinel — then
read the store at the returned position and unmarshal. -/
def segmentRead (s : Segment) (off : Nat) : Res Record :=
  let rel : Nat := ((off % U64) + U64 - (s.baseOffset % U64)) % U64
  let relI : Int := if rel < I64 then (rel : Int) else (rel : Int) - (U64 : Int)
  match indexRead s.index relI with
  | .err e => .err e
  | .ok (_, pos) =>
      match storeRead s.store pos with
      | .err e => .err e
      | .ok p => .ok (protoUnmarshal p)

/-- segment.go `segment.IsMaxed`: the store or the index reached its configured cap. -/
def segmentIsMaxed (s : Segment) : Bool :=
  decide (s.config.segment.maxStoreBytes ≤ s.store.size) ||
    decide (s.config.segment.maxIndexBytes ≤ s.index.size)

/-- Reopening a segment after a clean close: the store file is the flushed bytes,
the index file is truncated back to `size` (segment.go `Close` via
store.Close / index.Close). -/
def reopenSegment (s : Segment) : Segment :=
  newSegment s.config s.store.bytes (indexCloseFile s.index) s.baseOffset

instance : Inhabited Record := ⟨{ value := [], offset := 0 }⟩

instance : Inhabited Segment :=
  ⟨{ store := { bytes := [], size := 0 }, index := { mmap := [], size := 0 },
     baseOffset := 0, nextOffset := 0,
     config := { segment := { maxStoreBytes := 0, maxIndexBytes := 0, initialOffset := 0 } } }⟩

/-- The log: configuration plus the ordered segment list (log.go `Log`).  Go's
`activeSegment` pointer always designates the last element of `segments` (it is
set exactly when a segment is appended), so the model reads the active segment
as `segments.getLast?`. -/
structure Log where
  config : Config
  segments : List Segment
deriving DecidableEq

/-- The `activeSegment` field of log.go `Log`, realized as the last segment. -/
def logActive (l : Log) : Option Segment :=
  l.segments.getLast?

/-- log.go `NewLog`: zero values of the size caps default to 1024. -/
def defaultedConfig (c : Config) : Config :=
  { segment :=
      { c.segment with
        maxStoreBytes := if c.segment.maxStoreBytes = 0 then 1024 else c.segment.maxStoreBytes,
        maxIndexBytes := if c.segment.maxIndexBytes = 0 then 1024 else c.segment.maxIndexBytes } }

/-- log.go `Log.Append`: append to the active (= last) segment; on success, if the
segment is now maxed, create a fresh segment at `off + 1` (its two files are newly
created, hence empty) and make it active.  With no segments at all (possible only
after the active segment was truncated away, behavior the spec leaves undefined)
the model reports an error. -/
def logAppend (l : Log) (r : Record) : Res Nat × Log :=
  match l.segments.getLast? with
  | none => (.err .eof, l)
  | some a =>
    let res := segmentAppend a r
    let segs := l.segments.dropLast ++ [res.2]
    match res.1 with
    | .err e => (.err e, { l with segments := segs })
    | .ok off =>
        if segmentIsMaxed res.2 then
          (.ok off, { l with segments := segs ++ [newSegment l.config [] [] (off + 1)] })
        else (.ok off, { l with segments := segs })

/-- log.go `Log.Read`: find the segment with `baseOffset ≤ off < nextOffset`;
report `ErrOffsetOutOfRange` when there is none (the source's additional
`s.nextOffset <= off` re-check is subsumed by the search condition), otherwise
delegate to the segment. -/
def logRead (l : Log) (off : Nat) : Res Record :=
  match l.segments.find? (fun s => decide (s.baseOffset ≤ off) && decide (off < s.nextOffset)) with
  | none => .err (.offsetOutOfRange off)
  | some s => segmentRead s off

/-- log.go `Log.Truncate`: remove every segment with `nextOffset ≤ lowest + 1`,
keep the rest in order. -/
def logTruncate (l : Log) (lowest : Nat) : Log :=
  { l with segments := l.segments.filter (fun s => decide (lowest + 1 < s.nextOffset)) }

/-- log.go `Log.LowestOffset`: `segments[0].baseOffset`. -/
def logLowestOffset (l : Log) : Nat :=
  (l.segments.headI).baseOffset

/-- log.go `Log.HighestOffset`: the last segment's `nextOffset`, minus one unless zero. -/
def logHighestOffset (l : Log) : Nat :=
  let off := (l.segments.getLastI).nextOffset
  if off = 0 then 0 else off - 1

/-- log.go `setup`, directory-scan half: the parsed base offsets (each segment
contributes its `.store` and its `.index` filename, both parsing to the same
number) are sorted ascending; the loop then increments its index twice per
iteration, visiting positions 0, 2, 4, …. -/
def everyOther : List Nat → List Nat
  | [] => []
  | [x] => [x]
  | x :: _ :: rest => x :: everyOther rest

/-- The base offsets `setup` actually constructs segments for, in order. -/
def setupOffsets (files : List Nat) : List Nat :=
  everyOther (files.insertionSort (· ≤ ·))

/-- log.go `setup`, construction loop: build a segment per selected base offset,
appending each to the segment list and making it the active segment.  `ok b`
models whether the file-system operations of `newSegment` at base offset `b`
succeed; `dirStore` / `dirIndex` give the on-disk contents of `b.store` /
`b.index`. -/
def setupLoop (c : Config) (ok : Nat → Bool) (dirStore dirIndex : Nat → List Nat) :
    List Nat → List Segment × Option Segment → Res (List Segment × Option Segment)
  | [], acc => .ok acc
  | b :: rest, acc =>
    if ok b then
      let s := newSegment c (dirStore b) (dirIndex b) b
      setupLoop c ok dirStore dirIndex rest (acc.1 ++ [s], some s)
    else .err .eof

/-- log.go `setup`: run the loop over the deduplicated sorted base offsets; if no
segment was created (empty directory), create one at `initialOffset`.  The source
returns `nil` — success — when that final creation fails (line 74 of log.go reads
`return nil` where `return err` was intended), which this model reproduces by
answering `.ok` with an empty segment list. -/
def logSetup (c : Config) (ok : Nat → Bool) (dirStore dirIndex : Nat → List Nat)
    (files : List Nat) : Res (List Segment × Option Segment) :=
  match setupLoop c ok dirStore dirIndex (setupOffsets files) ([], none) with
  | .err e => .err e
  | .ok acc =>
    if acc.1.isEmpty then
      if ok c.segment.initialOffset then
        let s := newSegment c [] [] c.segment.initialOffset
        .ok ([s], some s)
      else .ok acc
    else .ok acc

/-- The log produced by a successful construction on an empty directory. -/
def logInit (c : Config) : Log :=
  { config := c, segments := [newSegment c [] [] c.segment.initialOffset] }

/-- Store position recorded in index entry `j` (decoded from the mapped region). -/
def posAt (s : Segment) (j : Nat) : Nat :=
  readBE s.index.mmap (entWidth * j + offWidth) posWidth

/-- Representation invariant of a segment holding exactly the records `rs`
(in offset order): offset bookkeeping, index layout, and a well-formed frame in
the store behind every index entry.  The store may additionally hold unreferenced
garbage bytes (frames whose index write failed). -/
def SegRep (s : Segment) (rs : List Record) : Prop :=
  s.nextOffset = s.baseOffset + rs.length
  ∧ rs.length < U32
  ∧ s.index.size = entWidth * rs.length
  ∧ s.index.size ≤ s.index.mmap.length
  ∧ s.index.mmap.length = s.config.segment.maxIndexBytes
  ∧ s.store.size = s.store.bytes.length
  ∧ s.store.bytes.length < U64
  ∧ ∀ j, j < rs.length →
      (rs.getD j default).offset = s.baseOffset + j
      ∧ readBE s.index.mmap (entWidth * j) offWidth = j
      ∧ posAt s j + lenWidth + (protoMarshal (rs.getD j default)).length ≤ s.store.bytes.length
      ∧ (s.store.bytes.drop (posAt s j)).take (lenWidth + (protoMarshal (rs.getD j default)).length)
          = encBE lenWidth (protoMarshal (rs.getD j default)).length ++ protoMarshal (rs.getD j default)

/-- Consecutive segments abut: `A.nextOffset = B.baseOffset`. -/
def Chained (segs : List Segment) : Prop :=
  List.Chain' (fun a b => a.nextOffset = b.baseOffset) segs

/-- The records of `hist` that fall into segment `s`'s offset range, where `hist`
lists every record ever successfully appended (the record with absolute offset
`init + i` at position `i`). -/
def histSlice (init : Nat) (hist : List Record) (s : Segment) : List Record :=
  (hist.drop (s.baseOffset - init)).take (s.nextOffset - s.baseOffset)

/-- A segment of a reachable log: it carries the log's configuration, covers a
range of appended offsets, and represents its slice of the append history. -/
def SegOk (c : Config) (init : Nat) (hist : List Record) (s : Segment) : Prop :=
  s.config = c ∧ init ≤ s.baseOffset ∧ s.nextOffset ≤ init + hist.length
  ∧ SegRep s (histSlice init hist s)

/-- Configuration side conditions carried by reachability: the index cap keeps
relative offsets inside uint32 (Go narrows them to 32 bits), and the initial
offset is a uint64 value. -/
def WFConfig (c : Config) : Prop :=
  c.segment.maxIndexBytes ≤ entWidth * (U32 - 1) ∧ c.segment.initialOffset < U64

/-- Full representation invariant of a reachable log with append history `hist`. -/
def LogRep (c : Config) (hist : List Record) (l : Log) : Prop :=
  l.config = c ∧ WFConfig c
  ∧ c.segment.initialOffset + hist.length ≤ U64
  ∧ Chained l.segments
  ∧ (∀ s ∈ l.segments, SegOk c c.segment.initialOffset hist s)
  ∧ (∀ s, l.segments.getLast? = some s →
      s.nextOffset = c.segment.initialOffset + hist.length)

/-- One public log operation.  The append steps carry the range side conditions of
the host integer types: offsets are uint64 values and a store file cannot outgrow
the int64 file-offset space (the model states both bounds against 2^64). -/
inductive Step (c : Config) : Log × List Record → Log × List Record → Prop where
  | append {l : Log} {hist : List Record} {r : Record} {off : Nat} {l2 : Log} :
      logAppend l r = (.ok off, l2) →
      c.segment.initialOffset + hist.length + 1 ≤ U64 →
      (∀ s ∈ l2.segments, s.store.bytes.length < U64) →
      Step c (l, hist) (l2, hist ++ [{ value := r.value, offset := off }])
  | appendFail {l : Log} {hist : List Record} {r : Record} {e : Err} {l2 : Log} :
      logAppend l r = (.err e, l2) →
      (∀ s ∈ l2.segments, s.store.bytes.length < U64) →
      Step c (l, hist) (l2, hist)
  | truncate {l : Log} {hist : List Record} (lowest : Nat) :
      Step c (l, hist) (logTruncate l lowest, hist)

/-- Any number of log operations. -/
def Steps (c : Config) : Log × List Record → Log × List Record → Prop :=
  Relation.ReflTransGen (Step c)

/-- Log states reachable from a successful construction on an empty directory by
appends and truncations. -/
inductive Reach (c : Config) : Log × List Record → Prop where
  | base : WFConfig c → Reach c (logInit c, [])
  | step {st st2 : Log × List Record} : Reach c st → Step c st st2 → Reach c st2

/-- A run of successful `segment.Append` calls (with the same host-integer range
side conditions as `Step.append`). -/
inductive SegAppends : Segment → List Record → Segment → Prop where
  | nil (s : Segment) : SegAppends s [] s
  | cons {s : Segment} {r : Record} {off : Nat} {s2 : Segment} {rs : List Record}
      {s3 : Segment} :
      segmentAppend s r = (.ok off, s2) →
      s2.store.bytes.length < U64 →
      s2.nextOffset ≤ U64 →
      SegAppends s2 rs s3 →
      SegAppends s (r :: rs) s3

/-- Spec-side description of `index.Read`'s success case, used to state claim C9:
reading entry number `idx` fails with EOF when the entry lies past `size` and
otherwise returns the entry's stored relative offset and store position. -/
def specIndexReadEntry (i : Index) (idx : Nat) : Res (Nat × Nat) :=
  if i.size < idx * entWidth + entWidth then .err .eof
  else .ok (readBE i.mmap (idx * entWidth) offWidth,
    readBE i.mmap (idx * entWidth + offWidth) posWidth)

instance (s : Segment) (rs : List Record) : Decidable (SegRep s rs) := by
  unfold SegRep
  infer_instance

instance (c : Config) : Decidable (WFConfig c) := by
  unfold WFConfig
  infer_instance

instance (segs : List Segment) : Decidable (Chained segs) := by
  unfold Chained
  infer_instance

instance (c : Config) (init : Nat) (hist : List Record) (s : Segment) :
    Decidable (SegOk c init hist s) := by
  unfold SegOk
  infer_instance

/-! ### Concrete fixtures used by witnesses and counterexamples -/

/-- A small configuration: tiny index (three entries), default-sized store. -/
def cfgA : Config :=
  { segment := { maxStoreBytes := 1024, maxIndexBytes := 36, initialOffset := 0 } }

/-- A record used by several witnesses (its pre-append offset is irrelevant). -/
def recA : Record :=
  { value := [7, 13], offset := 99 }

/-- One-entry index whose entry is `(0, 0)`: used by the C9 counterexample. -/
def idxC9 : Index :=
  { mmap := encBE offWidth 0 ++ encBE posWidth 0, size := 12 }

/-- A log holding one segment with exactly one record at offset 0, built by the
model's own operations: used by the C2 counterexample. -/
def logC2 : Log :=
  (logAppend (logInit cfgA) recA).2

/-- The single segment of `logC2`. -/
def segC2 : Segment :=
  logC2.segments.headI

/-- An empty index with room for two entries, used by the C8 witness. -/
def idxW8 : Index :=
  { mmap := List.replicate 24 0, size := 0 }

/-- A one-record segment at base offset 16, built by the model's own operations:
used by the C5 and C10 witnesses. -/
def segW : Segment :=
  (segmentAppend (newSegment cfgA [] [] 16) recA).2

/-! ### Byte-level lemmas -/

theorem entWidth_eq : entWidth = 12 := rfl

theorem offWidth_eq : offWidth = 4 := rfl

theorem posWidth_eq : posWidth = 8 := rfl

theorem lenWidth_eq : lenWidth = 8 := rfl

@[simp] theorem length_encBE (w v : Nat) : (encBE w v).length = w := by
  simp [encBE]

theorem encBE_succ (w v : Nat) :
    encBE (w + 1) v = (v / 256 ^ w % 256) :: encBE w v := by
  simp only [encBE, List.range_succ_eq_map, List.map_cons, List.map_map]
  congr 1
  apply List.map_congr_left
  intro a _
  simp only [Function.comp_apply, Nat.succ_eq_add_one]
  have h2 : w + 1 - 1 - (a + 1) = w - 1 - a := by omega
  rw [h2]

theorem decBE_foldl (l : List Nat) :
    ∀ a : Nat, l.foldl (fun a b => a * 256 + b) a = a * 256 ^ l.length + decBE l := by
  induction l with
  | nil => intro a; simp [decBE]
  | cons y t ih =>
    intro a
    have hd : decBE (y :: t) = t.foldl (fun a b => a * 256 + b) (0 * 256 + y) := by
      simp [decBE]
    simp only [List.foldl_cons, List.length_cons, hd]
    rw [ih (a * 256 + y), ih (0 * 256 + y)]
    ring

theorem decBE_cons (x : Nat) (l : List Nat) :
    decBE (x :: l) = x * 256 ^ l.length + decBE l := by
  have h : decBE (x :: l) = l.foldl (fun a b => a * 256 + b) (0 * 256 + x) := by
    simp [decBE]
  rw [h, decBE_foldl]
  ring

theorem decBE_encBE (w v : Nat) : decBE (encBE w v) = v % 256 ^ w := by
  induction w with
  | zero => simp [encBE, decBE, Nat.mod_one]
  | succ w ih =>
    rw [encBE_succ, decBE_cons, length_encBE, ih]
    rw [Nat.pow_succ, Nat.mod_mul]
    ring

theorem decBE_encBE_of_lt {w v : Nat} (h : v < 256 ^ w) :
    decBE (encBE w v) = v := by
  rw [decBE_encBE, Nat.mod_eq_of_lt h]

theorem length_writeAt {m : List Nat} {p : Nat} {v : List Nat}
    (h : p + v.length ≤ m.length) : (writeAt m p v).length = m.length := by
  simp only [writeAt, List.length_append, List.length_take, List.length_drop]
  omega

/-- A slice entirely inside the overwritten region reads back the written bytes. -/
theorem writeAt_read_self {m : List Nat} {p : Nat} {v : List Nat}
    (h : p + v.length ≤ m.length) :
    ((writeAt m p v).drop p).take v.length = v := by
  have hp : p ≤ m.length := le_trans (Nat.le_add_right p v.length) h
  have h1 : (m.take p).length = p := by
    simp [List.length_take, Nat.min_eq_left hp]
  simp only [writeAt, List.append_assoc]
  rw [List.drop_append_of_le_length (by omega)]
  have h2 : (m.take p).drop p = [] := List.drop_eq_nil_of_le (by omega)
  rw [h2, List.nil_append, List.take_append_of_le_length (le_refl _), List.take_length]

/-- A slice entirely below the overwritten region is unchanged. -/
theorem writeAt_read_lo {m : List Nat} {p q w : Nat} {v : List Nat}
    (hqw : q + w ≤ p) (hp : p ≤ m.length) :
    ((writeAt m p v).drop q).take w = (m.drop q).take w := by
  have h1 : (m.take p).length = p := by
    simp [List.length_take, Nat.min_eq_left hp]
  have h2 : q ≤ (m.take p).length := by omega
  have h3 : w ≤ ((m.take p).drop q).length := by
    rw [List.length_drop, h1]; omega
  simp only [writeAt, List.append_assoc]
  rw [List.drop_append_of_le_length h2, List.take_append_of_le_length h3]
  rw [List.drop_take, List.take_take]
  congr 1
  omega

/-- A slice entirely inside the first operand of an append is unchanged. -/
theorem slice_append {α : Type _} {a b : List α} {q w : Nat} (h : q + w ≤ a.length) :
    (((a ++ b).drop q).take w) = ((a.drop q).take w) := by
  have h2 : q ≤ a.length := by omega
  have h3 : w ≤ (a.drop q).length := by rw [List.length_drop]; omega
  rw [List.drop_append_of_le_length h2, List.take_append_of_le_length h3]

/-- Reading `w` bytes right at the end of the first operand of an append. -/
theorem slice_append_right (a b : List Nat) :
    ((a ++ b).drop a.length) = b := by
  simp

/-! ### Claim C7: store append accounting -/

/-- Claim C7: for every store state with current size `S` and payload `p`, a
successful `store.Append(p)` returns `bytesWritten = lenWidth + len(p)` and
`position = S`, the new size is `S + lenWidth + len(p)`, and hence
`position + bytesWritten` equals the new size. -/
theorem store_append_accounting (s : Store) (p : List Nat) :
    (storeAppend s p).1 = lenWidth + p.length
    ∧ (storeAppend s p).2.1 = s.size
    ∧ (storeAppend s p).2.2.size = s.size + (lenWidth + p.length)
    ∧ (storeAppend s p).2.1 + (storeAppend s p).1 = (storeAppend s p).2.2.size :=
  ⟨rfl, rfl, rfl, rfl⟩

/-! ### Claim C8: index write -/

/-- Claim C8: `index.Write(off, pos)` fails with EOF iff `size + entWidth` exceeds
the mapped region's length; otherwise it stores `off` big-endian in bytes
`[size, size+4)` and `pos` big-endian in bytes `[size+4, size+12)` of the mapped
region and advances `size` by `entWidth` (so `size` stays a multiple of
`entWidth`). -/
theorem index_write_spec (i : Index) (off pos : Nat) :
    (indexWrite i off pos = .err .eof ↔ i.mmap.length < i.size + entWidth)
    ∧ (i.size + entWidth ≤ i.mmap.length →
        ∃ i2, indexWrite i off pos = .ok i2
          ∧ i2.size = i.size + entWidth
          ∧ i2.mmap.length = i.mmap.length
          ∧ (i2.mmap.drop i.size).take offWidth = encBE offWidth off
          ∧ (i2.mmap.drop (i.size + offWidth)).take posWidth = encBE posWidth pos
          ∧ (entWidth ∣ i.size → entWidth ∣ i2.size)) := by
  constructor
  · by_cases h : i.mmap.length < i.size + entWidth
    · simp [indexWrite, h]
    · simp [indexWrite, h]
  · intro h
    have ho : offWidth = 4 := rfl
    have hp : posWidth = 8 := rfl
    have he : entWidth = 12 := rfl
    have hnot : ¬ i.mmap.length < i.size + entWidth := by omega
    have h4 : i.size + (encBE offWidth off).length ≤ i.mmap.length := by
      rw [length_encBE]
      omega
    have hlen1 : (writeAt i.mmap i.size (encBE offWidth off)).length = i.mmap.length :=
      length_writeAt h4
    have h8 : (i.size + offWidth) + (encBE posWidth pos).length
        ≤ (writeAt i.mmap i.size (encBE offWidth off)).length := by
      rw [length_encBE, hlen1]
      omega
    refine ⟨⟨writeAt (writeAt i.mmap i.size (encBE offWidth off))
        (i.size + offWidth) (encBE posWidth pos), i.size + entWidth⟩,
      by simp [indexWrite, hnot], rfl, ?_, ?_, ?_, ?_⟩
    · show (writeAt (writeAt i.mmap i.size (encBE offWidth off))
        (i.size + offWidth) (encBE posWidth pos)).length = i.mmap.length
      rw [length_writeAt h8, hlen1]
    · show ((writeAt (writeAt i.mmap i.size (encBE offWidth off))
        (i.size + offWidth) (encBE posWidth pos)).drop i.size).take offWidth
        = encBE offWidth off
      have hlo : ((writeAt (writeAt i.mmap i.size (encBE offWidth off))
          (i.size + offWidth) (encBE posWidth pos)).drop i.size).take offWidth
          = ((writeAt i.mmap i.size (encBE offWidth off)).drop i.size).take offWidth := by
        apply writeAt_read_lo
        · omega
        · rw [hlen1]
          omega
      rw [hlo]
      have h5 := writeAt_read_self h4
      rwa [length_encBE] at h5
    · show ((writeAt (writeAt i.mmap i.size (encBE offWidth off))
        (i.size + offWidth) (encBE posWidth pos)).drop (i.size + offWidth)).take posWidth
        = encBE posWidth pos
      have h5 := writeAt_read_self h8
      rwa [length_encBE] at h5
    · intro hdvd
      exact Nat.dvd_add hdvd dvd_rfl

/-- Witness for C8 at a concrete empty index with room. -/
theorem index_write_spec_witness :
    ∃ i2, indexWrite idxW8 5 9 = .ok i2
      ∧ i2.size = idxW8.size + entWidth
      ∧ i2.mmap.length = idxW8.mmap.length
      ∧ (i2.mmap.drop idxW8.size).take offWidth = encBE offWidth 5
      ∧ (i2.mmap.drop (idxW8.size + offWidth)).take posWidth = encBE posWidth 9
      ∧ (entWidth ∣ idxW8.size → entWidth ∣ i2.size) :=
  (index_write_spec idxW8 5 9).2 (by decide)

/-! ### Claim C9: index read -/

/-- Claim C9 (amended): `index.Read(in)` fails with EOF when `size = 0`; for
`in = -1` it reads the entry numbered `uint32((size / entWidth) - 1)` (the uint64
subtraction truncated to uint32); for `in ≥ 0` it reads the entry numbered
`in mod 2^32` (Go's `uint32(in)`), failing with EOF when `size` is smaller than
that entry's end; on success it returns the entry's stored relative offset and
store position. -/
theorem index_read_spec (i : Index) (inp : Int) :
    (i.size = 0 → indexRead i inp = .err .eof)
    ∧ (i.size ≠ 0 → inp = -1 →
        indexRead i inp = specIndexReadEntry i (((i.size / entWidth + (U64 - 1)) % U64) % U32))
    ∧ (i.size ≠ 0 → 0 ≤ inp →
        indexRead i inp = specIndexReadEntry i ((inp % (U32 : Int)).toNat)) := by
  refine ⟨?_, ?_, ?_⟩
  · intro h
    simp [indexRead, h]
  · intro h hm1
    subst hm1
    simp [indexRead, specIndexReadEntry, h]
  · intro h hge
    have hne : inp ≠ -1 := by omega
    simp [indexRead, specIndexReadEntry, h, hne]

/-- Witness for C9 at a one-entry index read with argument 0. -/
theorem index_read_spec_witness :
    indexRead idxC9 0 = specIndexReadEntry idxC9 (((0 : Int) % (U32 : Int)).toNat) :=
  (index_read_spec idxC9 0).2.2 (by decide) (by decide)

/-- Counterexample to C9 as stated: with one stored entry (`size = 12`),
`index.Read(2^32)` succeeds and returns entry 0 — although the claim requires EOF
because `size < 2^32 * entWidth + entWidth` — since Go first truncates the
argument to uint32. -/
theorem index_read_u32_wrap_counterexample :
    indexRead idxC9 (4294967296 : Int) = .ok (0, 0)
    ∧ idxC9.size < 4294967296 * entWidth + entWidth := by
  refine ⟨by decide, by decide⟩

/-! ### Claim C2: truncate -/

/-- Claim C2 (amended): `Truncate(L)` removes exactly those segments with
`nextOffset ≤ L + 1` — i.e. every removed segment's contained offsets are all
`≤ L` — and every retained segment holding at least one record contains an offset
`> L`. -/
theorem log_truncate_spec (l : Log) (lowest : Nat) :
    (logTruncate l lowest).segments
        = l.segments.filter (fun s => decide (lowest + 1 < s.nextOffset))
    ∧ (∀ s ∈ l.segments,
        (s.nextOffset ≤ lowest + 1 →
          ∀ o, s.baseOffset ≤ o → o < s.nextOffset → o ≤ lowest)
        ∧ (lowest + 1 < s.nextOffset → s.baseOffset < s.nextOffset →
            ∃ o, s.baseOffset ≤ o ∧ o < s.nextOffset ∧ lowest < o)) := by
  refine ⟨rfl, ?_⟩
  intro s _
  constructor
  · intro h1 o h2 h3
    omega
  · intro h1 h2
    exact ⟨s.nextOffset - 1, by omega, by omega, by omega⟩

/-- Witness for C2 at a concrete one-segment log and `lowest = 0`. -/
theorem log_truncate_spec_witness :
    (logTruncate logC2 0).segments
        = logC2.segments.filter (fun s => decide (0 + 1 < s.nextOffset))
    ∧ ∀ o, segC2.baseOffset ≤ o → o < segC2.nextOffset → o ≤ 0 :=
  ⟨(log_truncate_spec logC2 0).1,
   ((log_truncate_spec logC2 0).2 segC2 (by decide)).1 (by decide)⟩

/-- Counterexample to C2 as stated: `Truncate(0)` on a log whose single segment
holds exactly the record at offset 0 removes that segment, although the segment
contains an offset (namely 0) that is not strictly less than 0 — so "removes
exactly those segments whose every contained offset is `< L`" is false. -/
theorem log_truncate_strict_counterexample :
    (logTruncate logC2 0).segments = []
    ∧ ∃ s ∈ logC2.segments, s.baseOffset ≤ 0 ∧ 0 < s.nextOffset ∧ ¬ ((0:Nat) < 0) := by
  refine ⟨by decide, by decide⟩

/-! ### Segment representation lemmas -/

theorem protoUnmarshal_marshal (r : Record) (h : r.offset < U64) :
    protoUnmarshal (protoMarshal r) = r := by
  have h8 : (encBE 8 r.offset).length = 8 := length_encBE 8 r.offset
  have hU : (256 : Nat) ^ 8 = U64 := by norm_num [U64]
  unfold protoUnmarshal protoMarshal
  have ht := List.take_left (encBE 8 r.offset) r.value
  rw [h8] at ht
  have hd := List.drop_left (encBE 8 r.offset) r.value
  rw [h8] at hd
  rw [ht, hd, decBE_encBE_of_lt (by omega)]

theorem segRep_fresh (c : Config) (b : Nat) :
    SegRep (newSegment c [] [] b) [] := by
  refine ⟨?_, ?_, ?_, ?_, ?_, ?_, ?_, ?_⟩
  · show (newSegment c [] [] b).nextOffset = (newSegment c [] [] b).baseOffset + 0
    simp [newSegment, newIndex, newStore, indexRead]
  · show ([] : List Record).length < U32
    simp [U32]
  · show (newSegment c [] [] b).index.size = entWidth * 0
    simp [newSegment, newIndex]
  · show (newSegment c [] [] b).index.size ≤ (newSegment c [] [] b).index.mmap.length
    simp [newSegment, newIndex]
  · show (newSegment c [] [] b).index.mmap.length = c.segment.maxIndexBytes
    simp [newSegment, newIndex]
  · show (newSegment c [] [] b).store.size = (newSegment c [] [] b).store.bytes.length
    simp [newSegment, newStore]
  · show (newSegment c [] [] b).store.bytes.length < U64
    simp [newSegment, newStore, U64]
  · intro j hj
    simp at hj

theorem segRep_indexRead_entry {s : Segment} {rs : List Record}
    (hrep : SegRep s rs) {j : Nat} (hj : j < rs.length) :
    indexRead s.index (j : Int) = .ok (j, posAt s j) := by
  obtain ⟨h1, h2, h3, h4, h5, h6, h7, hent⟩ := hrep
  have h32 : U32 = 4294967296 := rfl
  have he : entWidth = 12 := rfl
  rw [h32] at h2
  have hj32 : j < U32 := by rw [h32]; omega
  have hsz : ¬ s.index.size = 0 := by rw [h3, he]; omega
  have hm1 : ¬ (j : Int) = -1 := by omega
  have htn : ((j : Int) % (U32 : Int)).toNat = j := by
    rw [Int.emod_eq_of_lt (Int.natCast_nonneg j) (by exact_mod_cast hj32)]
    exact Int.toNat_natCast j
  have hcond : ¬ s.index.size < j * entWidth + entWidth := by
    rw [h3, he]
    omega
  simp only [indexRead, if_neg hsz, if_neg hm1, htn, if_neg hcond]
  rw [mul_comm j entWidth, (hent j hj).2.1]
  rfl

theorem segRep_indexRead_last {s : Segment} {rs : List Record}
    (hrep : SegRep s rs) (hne : rs ≠ []) :
    indexRead s.index (-1) = .ok (rs.length - 1, posAt s (rs.length - 1)) := by
  obtain ⟨h1, h2, h3, h4, h5, h6, h7, hent⟩ := hrep
  have h32 : U32 = 4294967296 := rfl
  have h64 : U64 = 18446744073709551616 := rfl
  have he : entWidth = 12 := rfl
  have hlen1 : 1 ≤ rs.length := by
    cases rs with
    | nil => exact absurd rfl hne
    | cons a t => simp
  have hsz : ¬ s.index.size = 0 := by rw [h3, he]; omega
  have hdiv : s.index.size / entWidth = rs.length := by
    rw [h3]
    exact Nat.mul_div_cancel_left rs.length (by omega)
  have hidx : ((s.index.size / entWidth + (U64 - 1)) % U64) % U32 = rs.length - 1 := by
    rw [hdiv, h64, h32]
    omega
  have hj : rs.length - 1 < rs.length := by omega
  have hcond : ¬ s.index.size < (rs.length - 1) * entWidth + entWidth := by
    rw [h3, he]
    omega
  simp only [indexRead, if_neg hsz, hidx, if_true, ite_true, eq_self_iff_true, if_neg hcond]
  rw [mul_comm (rs.length - 1) entWidth, (hent (rs.length - 1) hj).2.1]
  rfl

theorem segRep_store_entry {s : Segment} {rs : List Record}
    (hrep : SegRep s rs) {j : Nat} (hj : j < rs.length) :
    storeRead s.store (posAt s j) = .ok (protoMarshal (rs.getD j default)) := by
  obtain ⟨h1, h2, h3, h4, h5, h6, h7, hent⟩ := hrep
  obtain ⟨hoff, hrd, hbound, hfr⟩ := hent j hj
  have hl : lenWidth = 8 := rfl
  have hU : (256 : Nat) ^ 8 = U64 := by norm_num [U64]
  set mlen := (protoMarshal (rs.getD j default)).length with hmlen
  have hml : mlen < U64 := by omega
  have hcond1 : ¬ s.store.bytes.length < posAt s j + lenWidth := by omega
  have htk : ((s.store.bytes.drop (posAt s j)).take (lenWidth + mlen)).take lenWidth
      = (s.store.bytes.drop (posAt s j)).take lenWidth := by
    rw [List.take_take]
    congr 1
    omega
  have hn : readBE s.store.bytes (posAt s j) lenWidth = mlen := by
    unfold readBE
    rw [← htk, hfr]
    have h8 : (encBE lenWidth mlen).length = lenWidth := length_encBE lenWidth mlen
    have htl := List.take_left (encBE lenWidth mlen) (protoMarshal (rs.getD j default))
    rw [h8] at htl
    rw [htl]
    exact decBE_encBE_of_lt (by rw [hl, hU]; exact hml)
  have hcond2 : ¬ s.store.bytes.length < posAt s j + lenWidth + mlen := by omega
  have hpay : (s.store.bytes.drop (posAt s j + lenWidth)).take mlen
      = protoMarshal (rs.getD j default) := by
    have hdt : ((s.store.bytes.drop (posAt s j)).take (lenWidth + mlen)).drop lenWidth
        = ((s.store.bytes.drop (posAt s j)).drop lenWidth).take mlen := by
      rw [List.drop_take]
      congr 1
      omega
    have hdd : (s.store.bytes.drop (posAt s j)).drop lenWidth
        = s.store.bytes.drop (posAt s j + lenWidth) := by
      rw [List.drop_drop]
    have h8 : (encBE lenWidth mlen).length = lenWidth := length_encBE lenWidth mlen
    have hdl := List.drop_left (encBE lenWidth mlen) (protoMarshal (rs.getD j default))
    rw [h8] at hdl
    have hfr2 : ((s.store.bytes.drop (posAt s j)).take (lenWidth + mlen)).drop lenWidth
        = protoMarshal (rs.getD j default) := by
      rw [hfr, hdl]
    rw [← hdd, ← hdt, hfr2]
  simp only [storeRead, if_neg hcond1, hn, if_neg hcond2, hpay]

theorem readBE_writeAt_lo {m : List Nat} {p q w : Nat} {v : List Nat}
    (hqw : q + w ≤ p) (hp : p ≤ m.length) :
    readBE (writeAt m p v) q w = readBE m q w := by
  unfold readBE
  rw [writeAt_read_lo hqw hp]

theorem readBE_writeAt_self {m : List Nat} {p : Nat} {v : List Nat}
    (h : p + v.length ≤ m.length) :
    readBE (writeAt m p v) p v.length = decBE v := by
  unfold readBE
  rw [writeAt_read_self h]

theorem segRep_append_ok {s : Segment} {rs : List Record} {r : Record} {off : Nat}
    {s2 : Segment}
    (hrep : SegRep s rs)
    (happ : segmentAppend s r = (.ok off, s2))
    (hnext : s.nextOffset < U64)
    (hfit : s2.store.bytes.length < U64)
    (hwf : s.config.segment.maxIndexBytes ≤ entWidth * (U32 - 1)) :
    SegRep s2 (rs ++ [{ value := r.value, offset := s.nextOffset }])
    ∧ off = s.nextOffset
    ∧ s2.baseOffset = s.baseOffset
    ∧ s2.nextOffset = s.nextOffset + 1
    ∧ s2.config = s.config := by
  obtain ⟨h1, h2, h3, h4, h5, h6, h7, hent⟩ := hrep
  have h32 : U32 = 4294967296 := rfl
  have h64 : U64 = 18446744073709551616 := rfl
  have hrel : (((s.nextOffset % U64) + U64 - (s.baseOffset % U64)) % U64) % U32
      = rs.length := by
    rw [h32] at h2
    rw [h64, h32, h1]
    rw [h1, h64] at hnext
    omega
  by_cases hroom : s.index.mmap.length < s.index.size + entWidth
  · have hiw : indexWrite s.index rs.length s.store.size = .err .eof := by
      simp [indexWrite, hroom]
    simp [segmentAppend, storeAppend, hrel, hiw] at happ
  · have hiw : indexWrite s.index rs.length s.store.size
        = .ok ⟨writeAt (writeAt s.index.mmap s.index.size (encBE offWidth rs.length))
            (s.index.size + offWidth) (encBE posWidth s.store.size),
          s.index.size + entWidth⟩ := by
      simp [indexWrite, hroom]
    simp only [segmentAppend, storeAppend, hrel, hiw] at happ
    rw [Prod.mk.injEq] at happ
    obtain ⟨happ1, happ2⟩ := happ
    have hoff : off = s.nextOffset := by
      cases happ1
      rfl
    subst happ2
    refine ⟨?_, hoff, rfl, rfl, rfl⟩
    unfold SegRep posAt
    dsimp only
    simp only [entWidth_eq, offWidth_eq, posWidth_eq, lenWidth_eq] at *
    set nr : Record := { value := r.value, offset := s.nextOffset } with hnr
    have hjlen : (rs ++ [nr]).length = rs.length + 1 := by
      rw [List.length_append, List.length_cons, List.length_nil]
    set p : List Nat := protoMarshal nr with hpdef
    set m1 : List Nat := writeAt s.index.mmap s.index.size (encBE 4 rs.length) with hm1
    set m2 : List Nat := writeAt m1 (s.index.size + 4) (encBE 8 s.store.size) with hm2
    have hm1len : m1.length = s.index.mmap.length := by
      rw [hm1]
      apply length_writeAt
      rw [length_encBE]
      omega
    have hm2len : m2.length = s.index.mmap.length := by
      rw [hm2]
      rw [length_writeAt]
      · exact hm1len
      · rw [length_encBE, hm1len]
        omega
    have hb2 : (s.store.bytes ++ encBE 8 p.length ++ p)
        = s.store.bytes ++ (encBE 8 p.length ++ p) := by
      rw [List.append_assoc]
    have hb2len : (s.store.bytes ++ encBE 8 p.length ++ p).length
        = s.store.bytes.length + (8 + p.length) := by
      rw [List.length_append, List.length_append, length_encBE]
      omega
    have hk1 : rs.length + 1 < U32 := by
      rw [h5] at hroom
      rw [h32]
      rw [h32] at hwf
      rw [h3] at hroom
      omega
    refine ⟨?_, ?_, ?_, ?_, ?_, ?_, ?_, ?_⟩
    · rw [hjlen]
      omega
    · rw [hjlen]
      exact hk1
    · rw [hjlen, h3]
      ring
    · rw [hm2len]
      omega
    · rw [hm2len, h5]
    · rw [hb2len, h6]
    · exact hfit
    · intro j hj
      rw [hjlen] at hj
      by_cases hjlt : j < rs.length
      · obtain ⟨hoffj, hrdj, hbj, hfrj⟩ := hent j hjlt
        unfold posAt at hbj hfrj
        simp only [entWidth_eq, offWidth_eq, posWidth_eq] at hbj hfrj
        have hgd := List.getD_append rs [nr] default j hjlt
        have hjw : 12 * j + 12 ≤ s.index.size := by
          rw [h3]
          omega
        have hrd2 : readBE m2 (12 * j) 4 = j := by
          rw [hm2, readBE_writeAt_lo (by omega) (by rw [hm1len]; omega)]
          rw [hm1, readBE_writeAt_lo (by omega) (by omega)]
          exact hrdj
        have hpos2 : readBE m2 (12 * j + 4) 8 = readBE s.index.mmap (12 * j + 4) 8 := by
          rw [hm2, readBE_writeAt_lo (by omega) (by rw [hm1len]; omega)]
          rw [hm1, readBE_writeAt_lo (by omega) (by omega)]
        refine ⟨?_, hrd2, ?_, ?_⟩
        · rw [hgd]
          exact hoffj
        · rw [hpos2, hgd, hb2len]
          omega
        · rw [hpos2, hgd, hb2]
          rw [slice_append (by omega)]
          exact hfrj
      · have hjeq : j = rs.length := by omega
        subst hjeq
        have hgd : (rs ++ [nr]).getD rs.length default = nr := by
          rw [List.getD_append_right rs [nr] default rs.length (le_refl _)]
          simp
        have h2564 : (256 : Nat) ^ 4 = 4294967296 := by norm_num
        have h2568 : (256 : Nat) ^ 8 = 18446744073709551616 := by norm_num
        have hrd2 : readBE m2 (12 * rs.length) 4 = rs.length := by
          rw [← h3, hm2]
          rw [readBE_writeAt_lo (by omega) (by rw [hm1len]; omega)]
          rw [hm1]
          have hself := readBE_writeAt_self (m := s.index.mmap) (p := s.index.size)
            (v := encBE 4 rs.length) (by rw [length_encBE]; omega)
          rw [length_encBE] at hself
          rw [hself, decBE_encBE, h2564]
          rw [h32] at h2
          omega
        have hpos2 : readBE m2 (12 * rs.length + 4) 8 = s.store.bytes.length := by
          rw [← h3, hm2]
          have hself := readBE_writeAt_self (m := m1) (p := s.index.size + 4)
            (v := encBE 8 s.store.size) (by rw [length_encBE, hm1len]; omega)
          rw [length_encBE] at hself
          rw [hself, decBE_encBE, h2568, h6]
          rw [h64] at h7
          omega
        refine ⟨?_, hrd2, ?_, ?_⟩
        · rw [hgd]
          show s.nextOffset = s.baseOffset + rs.length
          exact h1
        · rw [hpos2, hgd, ← hpdef, hb2len]
          omega
        · rw [hpos2, hgd, ← hpdef, hb2, List.drop_left]
          have hlen : (encBE 8 p.length ++ p).length = 8 + p.length := by
            rw [List.length_append, length_encBE]
          rw [← hlen, List.take_length]

theorem segRep_append_fail {s : Segment} {rs : List Record} {r : Record} {e : Err}
    {s2 : Segment}
    (hrep : SegRep s rs)
    (happ : segmentAppend s r = (.err e, s2))
    (hfit : s2.store.bytes.length < U64) :
    SegRep s2 rs ∧ s2.baseOffset = s.baseOffset ∧ s2.nextOffset = s.nextOffset
    ∧ s2.config = s.config ∧ s2.index = s.index := by
  obtain ⟨h1, h2, h3, h4, h5, h6, h7, hent⟩ := hrep
  by_cases hroom : s.index.mmap.length < s.index.size + entWidth
  · simp only [segmentAppend, storeAppend, indexWrite, if_pos hroom] at happ
    rw [Prod.mk.injEq] at happ
    obtain ⟨happ1, happ2⟩ := happ
    subst happ2
    refine ⟨?_, rfl, rfl, rfl, rfl⟩
    unfold SegRep posAt
    dsimp only
    simp only [entWidth_eq, offWidth_eq, posWidth_eq, lenWidth_eq] at *
    set p : List Nat := protoMarshal { value := r.value, offset := s.nextOffset } with hpdef
    have hb2len : (s.store.bytes ++ encBE 8 p.length ++ p).length
        = s.store.bytes.length + (8 + p.length) := by
      rw [List.length_append, List.length_append, length_encBE]
      omega
    refine ⟨h1, h2, h3, h4, h5, ?_, hfit, ?_⟩
    · rw [hb2len, h6]
    · intro j hj
      obtain ⟨hoffj, hrdj, hbj, hfrj⟩ := hent j hj
      unfold posAt at hbj hfrj
      simp only [entWidth_eq, offWidth_eq, posWidth_eq] at hbj hfrj
      refine ⟨hoffj, hrdj, ?_, ?_⟩
      · rw [hb2len]
        omega
      · rw [List.append_assoc]
        rw [slice_append (by omega)]
        exact hfrj
  · simp only [segmentAppend, storeAppend, indexWrite, if_neg hroom] at happ
    rw [Prod.mk.injEq] at happ
    exact Res.noConfusion happ.1

theorem segRep_read {s : Segment} {rs : List Record}
    (hrep : SegRep s rs) {off : Nat}
    (hlo : s.baseOffset ≤ off) (hhi : off < s.nextOffset) (hU : s.nextOffset ≤ U64) :
    segmentRead s off = .ok (rs.getD (off - s.baseOffset) default) := by
  have h64 : U64 = 18446744073709551616 := rfl
  have h32 : U32 = 4294967296 := rfl
  have hI : I64 = 9223372036854775808 := rfl
  have hnext := hrep.1
  have hlen32 := hrep.2.1
  have hj : off - s.baseOffset < rs.length := by omega
  have hoffU : off < U64 := by omega
  have hrel : ((off % U64) + U64 - (s.baseOffset % U64)) % U64 = off - s.baseOffset := by
    rw [h64]
    rw [h64] at hoffU
    omega
  have hlt : off - s.baseOffset < I64 := by
    rw [hI]
    rw [h32] at hlen32
    omega
  have hoffj := ((hrep.2.2.2.2.2.2.2) (off - s.baseOffset) hj).1
  simp only [segmentRead, hrel, if_pos hlt]
  rw [segRep_indexRead_entry hrep hj]
  dsimp only
  rw [segRep_store_entry hrep hj]
  dsimp only
  rw [protoUnmarshal_marshal _ (by rw [hoffj]; omega)]

theorem segRep_read_last {s : Segment} {rs : List Record}
    (hrep : SegRep s rs) (hne : rs ≠ [])
    (hb : s.baseOffset < U64) (hn : s.nextOffset ≤ U64) :
    segmentRead s ((s.baseOffset + U64 - 1) % U64) = .ok (rs.getD (rs.length - 1) default) := by
  have h64 : U64 = 18446744073709551616 := rfl
  have h32 : U32 = 4294967296 := rfl
  have hI : I64 = 9223372036854775808 := rfl
  have hnext := hrep.1
  have hlen1 : 1 ≤ rs.length := by
    cases rs with
    | nil => exact absurd rfl hne
    | cons a t => simp
  have hj : rs.length - 1 < rs.length := by omega
  have hrel : ((((s.baseOffset + U64 - 1) % U64) % U64) + U64 - (s.baseOffset % U64)) % U64
      = U64 - 1 := by
    rw [h64]
    rw [h64] at hb
    omega
  have hnlt : ¬ (U64 - 1 < I64) := by
    rw [h64, hI]
    omega
  have hcast : ((U64 - 1 : Nat) : Int) - (U64 : Int) = -1 := by
    rw [h64]
    norm_num
  have hoffj := ((hrep.2.2.2.2.2.2.2) (rs.length - 1) hj).1
  simp only [segmentRead, hrel, if_neg hnlt, hcast]
  rw [segRep_indexRead_last hrep hne]
  dsimp only
  rw [segRep_store_entry hrep hj]
  dsimp only
  rw [protoUnmarshal_marshal _ (by rw [hoffj]; omega)]

/-- A slice entirely inside a `take` prefix is unchanged. -/
theorem slice_take {α : Type _} {m : List α} {n q w : Nat} (h : q + w ≤ n) :
    (((m.take n).drop q).take w) = ((m.drop q).take w) := by
  rw [List.drop_take, List.take_take]
  congr 1
  omega

theorem readBE_append_lo {a b : List Nat} {q w : Nat} (h : q + w ≤ a.length) :
    readBE (a ++ b) q w = readBE a q w := by
  unfold readBE
  rw [slice_append h]

theorem readBE_take {m : List Nat} {n q w : Nat} (h : q + w ≤ n) :
    readBE (m.take n) q w = readBE m q w := by
  unfold readBE
  rw [slice_take h]

theorem segmentAppend_ok_next {s : Segment} {r : Record} {off : Nat} {s2 : Segment}
    (happ : segmentAppend s r = (.ok off, s2)) :
    s2.nextOffset = s.nextOffset + 1 ∧ off = s.nextOffset ∧ s2.baseOffset = s.baseOffset
    ∧ s2.config = s.config := by
  by_cases hroom : s.index.mmap.length < s.index.size + entWidth
  · have hiw : ∀ (a b : Nat), indexWrite s.index a b = .err .eof := by
      intro a b
      simp [indexWrite, hroom]
    simp only [segmentAppend, hiw] at happ
    rw [Prod.mk.injEq] at happ
    exact Res.noConfusion happ.1
  · have hiw : ∀ (a b : Nat), indexWrite s.index a b
        = .ok ⟨writeAt (writeAt s.index.mmap s.index.size (encBE offWidth a))
            (s.index.size + offWidth) (encBE posWidth b), s.index.size + entWidth⟩ := by
      intro a b
      simp [indexWrite, hroom]
    simp only [segmentAppend, hiw] at happ
    rw [Prod.mk.injEq] at happ
    obtain ⟨ha, hb⟩ := happ
    injection ha with ha2
    subst ha2
    subst hb
    exact ⟨rfl, rfl, rfl, rfl⟩

theorem segAppends_rep {s : Segment} {l : List Record} {s2 : Segment}
    (hsteps : SegAppends s l s2) :
    ∀ rs, SegRep s rs → s.config.segment.maxIndexBytes ≤ entWidth * (U32 - 1) →
    ∃ rs2, SegRep s2 rs2 ∧ rs2.length = rs.length + l.length
      ∧ s2.baseOffset = s.baseOffset ∧ s2.config = s.config := by
  induction hsteps with
  | nil s =>
    intro rs hrep hwf
    exact ⟨rs, hrep, by simp, rfl, rfl⟩
  | cons happ hfit hU tail ih =>
    intro rs hrep hwf
    have hnx := segmentAppend_ok_next happ
    have hnext := hnx.1 ▸ hU
    obtain ⟨hrep2, hoff, hbase, hnext2, hcfg⟩ := segRep_append_ok hrep happ hnext hfit hwf
    have hwf2 := hcfg ▸ hwf
    obtain ⟨rs2, h2rep, h2len, h2base, h2cfg⟩ := ih _ hrep2 hwf2
    refine ⟨rs2, h2rep, ?_, h2base.trans hbase, h2cfg.trans hcfg⟩
    rw [h2len, List.length_append, List.length_cons]
    simp
    omega

theorem segRep_reopen {s : Segment} {rs : List Record} (hrep : SegRep s rs) :
    (reopenSegment s).nextOffset = s.baseOffset + rs.length := by
  obtain ⟨h1, h2, h3, h4, h5, h6, h7, hent⟩ := hrep
  have h32 : U32 = 4294967296 := rfl
  have h64 : U64 = 18446744073709551616 := rfl
  have he : entWidth = 12 := rfl
  have hfl : (indexCloseFile s.index).length = entWidth * rs.length := by
    unfold indexCloseFile
    rw [List.length_take, h3, Nat.min_eq_left (by rw [← h3]; exact h4)]
  by_cases hnil : rs.length = 0
  · have hzero : indexRead (newIndex (indexCloseFile s.index) s.config) (-1) = .err .eof := by
      unfold newIndex indexRead
      have hz : (indexCloseFile s.index).length = 0 := by rw [hfl, hnil]; ring
      simp [hz]
    unfold reopenSegment newSegment
    dsimp only
    rw [hzero, hnil]
    rfl
  · have hsz2 : (newIndex (indexCloseFile s.index) s.config).size = entWidth * rs.length := by
      unfold newIndex
      exact hfl
    have hm2 : (newIndex (indexCloseFile s.index) s.config).mmap
        = indexCloseFile s.index
          ++ List.replicate (s.config.segment.maxIndexBytes - (indexCloseFile s.index).length) 0 := by
      unfold newIndex
      dsimp only
      congr 1
      apply List.take_of_length_le
      rw [hfl, ← h3, ← h5]
      exact h4
    have hrd : readBE (newIndex (indexCloseFile s.index) s.config).mmap
        (entWidth * (rs.length - 1)) offWidth = rs.length - 1 := by
      rw [hm2, readBE_append_lo (by rw [hfl, he, offWidth_eq]; omega)]
      unfold indexCloseFile
      rw [readBE_take (by rw [h3, he, offWidth_eq]; omega)]
      exact (hent (rs.length - 1) (by omega)).2.1
    have hdiv : (newIndex (indexCloseFile s.index) s.config).size / entWidth = rs.length := by
      rw [hsz2]
      exact Nat.mul_div_cancel_left rs.length (by rw [he]; omega)
    have hidx : (((newIndex (indexCloseFile s.index) s.config).size / entWidth + (U64 - 1)) % U64)
        % U32 = rs.length - 1 := by
      rw [hdiv, h64, h32]
      rw [h32] at h2
      omega
    have hsznz : ¬ (newIndex (indexCloseFile s.index) s.config).size = 0 := by
      rw [hsz2, he]
      omega
    have hcond : ¬ (newIndex (indexCloseFile s.index) s.config).size
        < (rs.length - 1) * entWidth + entWidth := by
      rw [hsz2, he]
      omega
    have hread : indexRead (newIndex (indexCloseFile s.index) s.config) (-1)
        = .ok (rs.length - 1,
            readBE (newIndex (indexCloseFile s.index) s.config).mmap
              ((rs.length - 1) * entWidth + offWidth) posWidth) := by
      simp only [indexRead, if_neg hsznz, hidx, if_true, ite_true, eq_self_iff_true,
        if_neg hcond]
      rw [mul_comm (rs.length - 1) entWidth, hrd]
    unfold reopenSegment newSegment
    dsimp only
    rw [hread]
    dsimp only
    omega

/-! ### Claim C10: segment read at baseOffset - 1 -/

/-- Claim C10: for every segment holding at least one record, reading at
`baseOffset - 1` (a uint64 argument, so `baseOffset - 1` wraps modulo 2^64) does
not fail: the uint64 subtraction `off - baseOffset` yields `2^64 - 1`, which
reinterpreted as int64 is the index's `-1` last-entry sentinel, so the call
returns the segment's last record. -/
theorem segment_read_wraparound (s : Segment) (rs : List Record)
    (hrep : SegRep s rs) (hne : rs ≠ [])
    (hb : s.baseOffset < U64) (hn : s.nextOffset ≤ U64) :
    segmentRead s ((s.baseOffset + U64 - 1) % U64)
      = .ok (rs.getD (rs.length - 1) default) :=
  segRep_read_last hrep hne hb hn

/-- Witness for C10 at a concrete one-record segment with base offset 16. -/
theorem segment_read_wraparound_witness :
    segmentRead segW ((16 + U64 - 1) % U64) = .ok { value := [7, 13], offset := 16 } :=
  segment_read_wraparound segW [{ value := [7, 13], offset := 16 }]
    (by decide) (by decide) (by decide) (by decide)

/-! ### Claim C5: nextOffset inference at segment construction -/

/-- Claim C5: `newSegment` sets `nextOffset = baseOffset` when reading index entry
`-1` fails with EOF (empty index) and `nextOffset = baseOffset +
lastRelativeOffset + 1` when the read succeeds; hence after `k` sequential
appends and a clean close, reopening the segment recovers
`nextOffset = baseOffset + k`. -/
theorem newSegment_nextOffset_inference :
    (∀ (c : Config) (sb ib : List Nat) (b : Nat),
        ((∃ e, indexRead (newIndex ib c) (-1) = .err e) →
          (newSegment c sb ib b).nextOffset = b)
        ∧ (∀ off po, indexRead (newIndex ib c) (-1) = .ok (off, po) →
            (newSegment c sb ib b).nextOffset = b + off + 1))
    ∧ (∀ (c : Config) (b : Nat) (l : List Record) (s2 : Segment),
        c.segment.maxIndexBytes ≤ entWidth * (U32 - 1) →
        SegAppends (newSegment c [] [] b) l s2 →
        (reopenSegment s2).nextOffset = b + l.length) := by
  constructor
  · intro c sb ib b
    constructor
    · rintro ⟨e, he⟩
      unfold newSegment
      dsimp only
      rw [he]
    · intro off po h
      unfold newSegment
      dsimp only
      rw [h]
  · intro c b l s2 hwf hsteps
    have hrep0 := segRep_fresh c b
    obtain ⟨rs2, hrep2, hlen, hbase, hcfg⟩ := segAppends_rep hsteps [] hrep0 hwf
    rw [segRep_reopen hrep2, hbase, hlen]
    show b + (([] : List Record).length + l.length) = b + l.length
    simp

/-- Witness for C5, part two, at one concrete append from a fresh segment. -/
theorem newSegment_nextOffset_inference_witness :
    (reopenSegment segW).nextOffset = 17 :=
  newSegment_nextOffset_inference.2 cfgA 16 [recA] segW (by decide)
    (@SegAppends.cons (newSegment cfgA [] [] 16) recA 16 segW [] segW
      (by decide) (by decide) (by decide) (SegAppends.nil segW))

/-! ### Claim C3: non-empty segment list after construction -/

/-- Claim C3 (resolving a code bug): on an empty directory, when creating the
initial segment at `initialOffset` fails, `setup` returns success (`nil` error)
with an empty segment list — log.go's fallback branch returns `nil` where `err`
was intended — contradicting the claimed invariant; when the creation succeeds,
the segment list holds exactly one segment with `baseOffset = initialOffset`. -/
theorem setup_empty_dir_error_swallowed :
    logSetup cfgA (fun _ => false) (fun _ => []) (fun _ => []) [] = .ok ([], none)
    ∧ logSetup cfgA (fun _ => true) (fun _ => []) (fun _ => []) []
        = .ok ([newSegment cfgA [] [] 0], some (newSegment cfgA [] [] 0))
    ∧ (newSegment cfgA [] [] 0).baseOffset = cfgA.segment.initialOffset := by
  refine ⟨by decide, by decide, by decide⟩

/-! ### Claim C6: setup builds one segment per distinct base offset -/

theorem everyOther_sorted_doubled :
    ∀ L : List Nat, L.Sorted (· ≤ ·) → (∀ b, L.count b = 0 ∨ L.count b = 2) →
      everyOther L = L.dedup
  | [], _, _ => rfl
  | [x], _, hc => by
    have h := hc x
    simp [List.count_cons] at h
  | x :: y :: rest, hs, hc => by
    have hs1 := (List.sorted_cons.mp hs).2
    have hxle := (List.sorted_cons.mp hs).1
    have hyle := (List.sorted_cons.mp hs1).1
    have hcx := hc x
    rw [List.count_cons] at hcx
    simp only [beq_self_eq_true, if_true, ite_true] at hcx
    have hcx1 : (y :: rest).count x = 1 := by
      rcases hcx with h | h
      · omega
      · omega
    have hyx : y = x := by
      by_cases hb : (y == x) = true
      · simpa using hb
      · exfalso
        rw [List.count_cons, if_neg hb] at hcx1
        have hxmem : x ∈ rest := List.count_pos_iff.mp (by omega)
        have h1 : x ≤ y := hxle y (by simp)
        have h2 : y ≤ x := hyle x hxmem
        exact hb (by simp [le_antisymm h2 h1])
    subst hyx
    have hxnr : y ∉ rest := by
      rw [← List.count_eq_zero]
      rw [List.count_cons] at hcx1
      simp only [beq_self_eq_true, if_true, ite_true] at hcx1
      omega
    have hcrest : ∀ b, rest.count b = 0 ∨ rest.count b = 2 := by
      intro b
      have hcb := hc b
      rw [List.count_cons, List.count_cons] at hcb
      by_cases hb : (y == b) = true
      · have hbeq : y = b := by simpa using hb
        subst hbeq
        left
        rw [← List.count_eq_zero] at hxnr
        exact hxnr
      · rw [if_neg hb] at hcb
        rcases hcb with h | h
        · left
          omega
        · right
          omega
    have hsrest := (List.sorted_cons.mp hs1).2
    show y :: everyOther rest = (y :: y :: rest).dedup
    rw [List.dedup_cons_of_mem (by simp), List.dedup_cons_of_not_mem hxnr]
    rw [everyOther_sorted_doubled rest hsrest hcrest]

theorem setupLoop_active (c : Config) (ok : Nat → Bool) (dS dI : Nat → List Nat) :
    ∀ (l : List Nat) (acc : List Segment × Option Segment) (segs2 : List Segment)
      (act2 : Option Segment),
      setupLoop c ok dS dI l acc = .ok (segs2, act2) →
      acc.2 = acc.1.getLast? → act2 = segs2.getLast? := by
  intro l
  induction l with
  | nil =>
    intro acc segs2 act2 h hinv
    simp only [setupLoop] at h
    rw [Res.ok.injEq, Prod.mk.injEq] at h
    rw [← h.1, ← h.2]
    exact hinv
  | cons b rest ih =>
    intro acc segs2 act2 h hinv
    simp only [setupLoop] at h
    by_cases hb : ok b = true
    · rw [if_pos hb] at h
      exact ih _ segs2 act2 h (by rw [List.getLast?_concat])
    · rw [if_neg hb] at h
      exact Res.noConfusion h

theorem setupLoop_all_ok (c : Config) (dS dI : Nat → List Nat) :
    ∀ (l : List Nat) (acc : List Segment × Option Segment),
      ∃ act, setupLoop c (fun _ => true) dS dI l acc
        = .ok (acc.1 ++ l.map (fun b => newSegment c (dS b) (dI b) b), act) := by
  intro l
  induction l with
  | nil =>
    intro acc
    exact ⟨acc.2, by simp [setupLoop]⟩
  | cons b rest ih =>
    intro acc
    obtain ⟨act, hact⟩ := ih (acc.1 ++ [newSegment c (dS b) (dI b) b],
      some (newSegment c (dS b) (dI b) b))
    refine ⟨act, ?_⟩
    simp only [setupLoop, List.map_cons, if_true, ite_true]
    rw [hact]
    rw [Res.ok.injEq, Prod.mk.injEq]
    exact ⟨by simp, rfl⟩

/-- Claim C6: on a directory whose file stems each appear exactly twice (the
`.store` and `.index` file of each segment), `setup` constructs exactly one
segment per distinct base offset, in ascending base-offset order, and the last
segment constructed becomes the active segment. -/
theorem setup_dedup_sorted (c : Config) (dS dI : Nat → List Nat) (files : List Nat)
    (hne : files ≠ [])
    (hcount : ∀ b, files.count b = 0 ∨ files.count b = 2) :
    ∃ segs act, logSetup c (fun _ => true) dS dI files = .ok (segs, act)
      ∧ segs.map (fun s => s.baseOffset) = (files.insertionSort (· ≤ ·)).dedup
      ∧ act = segs.getLast?
      ∧ segs ≠ [] := by
  have hsort : (files.insertionSort (· ≤ ·)).Sorted (· ≤ ·) :=
    List.sorted_insertionSort _ _
  have hcnt2 : ∀ b, (files.insertionSort (· ≤ ·)).count b = 0
      ∨ (files.insertionSort (· ≤ ·)).count b = 2 := by
    intro b
    rw [(List.perm_insertionSort (· ≤ ·) files).count_eq]
    exact hcount b
  have hoffs : setupOffsets files = (files.insertionSort (· ≤ ·)).dedup :=
    everyOther_sorted_doubled _ hsort hcnt2
  have hdne : (files.insertionSort (· ≤ ·)).dedup ≠ [] := by
    intro hdenil
    cases hfs : files.insertionSort (· ≤ ·) with
    | nil =>
      have := (List.perm_insertionSort (· ≤ ·) files).symm
      rw [hfs] at this
      exact hne (List.Perm.eq_nil this)
    | cons a t =>
      have : a ∈ (files.insertionSort (· ≤ ·)).dedup := by
        rw [List.mem_dedup, hfs]
        simp
      rw [hdenil] at this
      exact absurd this (List.not_mem_nil a)
  obtain ⟨act, hact⟩ := setupLoop_all_ok c dS dI (setupOffsets files) ([], none)
  have hactlast := setupLoop_active c (fun _ => true) dS dI (setupOffsets files)
    ([], none) _ _ hact rfl
  set segs := (setupOffsets files).map (fun b => newSegment c (dS b) (dI b) b) with hsegs
  have hsegne : segs ≠ [] := by
    rw [hsegs, hoffs]
    intro hctr
    exact hdne (List.map_eq_nil_iff.mp hctr)
  refine ⟨segs, act, ?_, ?_, ?_, hsegne⟩
  · unfold logSetup
    rw [hact]
    dsimp only
    rw [if_neg]
    · rfl
    · rw [Bool.not_eq_true, List.isEmpty_eq_false]
      simpa using hsegne
  · rw [hsegs, List.map_map]
    have hm : ∀ b ∈ setupOffsets files,
        ((fun s => s.baseOffset) ∘ (fun b => newSegment c (dS b) (dI b) b)) b = id b := by
      intro b _
      rfl
    rw [List.map_congr_left hm, List.map_id, hoffs]
  · simpa using hactlast

/-! ### Log-level invariant machinery -/

theorem getD_slice {α : Type _} [Inhabited α] (hist : List α) (d t i : Nat)
    (hi : i < t) :
    ((hist.drop d).take t).getD i default = hist.getD (d + i) default := by
  rw [List.getD_eq_getElem?_getD, List.getD_eq_getElem?_getD]
  rw [List.getElem?_take, if_pos hi, List.getElem?_drop]

theorem slice_extend {α : Type _} (hist : List α) (x : α) (d t : Nat)
    (h : d + t = hist.length) :
    ((hist ++ [x]).drop d).take (t + 1) = ((hist.drop d).take t) ++ [x] := by
  rw [List.drop_append_of_le_length (by omega)]
  have hy : (hist.drop d).length = t := by
    rw [List.length_drop]
    omega
  rw [List.take_of_length_le (le_of_eq hy)]
  apply List.take_of_length_le
  rw [List.length_append, hy]
  simp

theorem chained_le_nexts :
    ∀ (a : Segment) (rest : List Segment), Chained (a :: rest) →
      (∀ s ∈ rest, s.baseOffset ≤ s.nextOffset) →
      ∀ t ∈ rest, a.nextOffset ≤ t.nextOffset := by
  intro a rest
  induction rest generalizing a with
  | nil =>
    intro _ _ t ht
    exact absurd ht (List.not_mem_nil t)
  | cons b rest ih =>
    intro hch hbn t ht
    have hab : a.nextOffset = b.baseOffset := (List.chain'_cons.mp hch).1
    have hbch : Chained (b :: rest) := (List.chain'_cons.mp hch).2
    have hbb : b.baseOffset ≤ b.nextOffset := hbn b (by simp)
    rcases List.mem_cons.mp ht with rfl | ht2
    · omega
    · have hrec := ih b hbch (fun s hs => hbn s (by simp [hs])) t ht2
      omega

theorem chained_filter_suffix (K : Nat) :
    ∀ segs : List Segment, Chained segs →
      (∀ s ∈ segs, s.baseOffset ≤ s.nextOffset) →
      ∃ pre suf, segs = pre ++ suf
        ∧ segs.filter (fun s => decide (K + 1 < s.nextOffset)) = suf := by
  intro segs
  induction segs with
  | nil =>
    intro _ _
    exact ⟨[], [], rfl, rfl⟩
  | cons s rest ih =>
    intro hch hbn
    by_cases hp : K + 1 < s.nextOffset
    · refine ⟨[], s :: rest, rfl, ?_⟩
      apply List.filter_eq_self.mpr
      intro a ha
      rcases List.mem_cons.mp ha with rfl | ha2
      · exact decide_eq_true hp
      · have h1 := chained_le_nexts s rest hch (fun t ht => hbn t (by simp [ht])) a ha2
        exact decide_eq_true (by omega)
    · obtain ⟨pre, suf, heq, hfil⟩ :=
        ih (List.Chain'.tail hch) (fun t ht => hbn t (by simp [ht]))
      refine ⟨s :: pre, suf, ?_, ?_⟩
      · rw [List.cons_append, ← heq]
      · rw [List.filter_cons_of_neg (by simpa using hp)]
        exact hfil

theorem logRep_init {c : Config} (hwf : WFConfig c) :
    LogRep c [] (logInit c) := by
  have hfresh := segRep_fresh c c.segment.initialOffset
  refine ⟨rfl, hwf, ?_, List.chain'_singleton _, ?_, ?_⟩
  · have := hwf.2
    simp only [List.length_nil]
    omega
  · intro s hs
    have hseq : s = newSegment c [] [] c.segment.initialOffset := by
      simpa [logInit] using hs
    subst hseq
    have hnext : (newSegment c [] [] c.segment.initialOffset).nextOffset
        = (newSegment c [] [] c.segment.initialOffset).baseOffset := by
      have := hfresh.1
      simpa using this
    have hbase : (newSegment c [] [] c.segment.initialOffset).baseOffset
        = c.segment.initialOffset := rfl
    refine ⟨rfl, le_of_eq hbase.symm, ?_, ?_⟩
    · rw [hnext, hbase]
      simp
    · show SegRep _ (histSlice c.segment.initialOffset [] _)
      have hsl : histSlice c.segment.initialOffset []
          (newSegment c [] [] c.segment.initialOffset) = [] := by
        unfold histSlice
        simp
      rw [hsl]
      exact hfresh
  · intro s hlast
    have hseq : s = newSegment c [] [] c.segment.initialOffset := by
      have h2 : newSegment c [] [] c.segment.initialOffset = s := by
        simpa [logInit] using hlast
      exact h2.symm
    subst hseq
    have hnext : (newSegment c [] [] c.segment.initialOffset).nextOffset
        = (newSegment c [] [] c.segment.initialOffset).baseOffset := by
      have := hfresh.1
      simpa using this
    rw [hnext]
    simp [newSegment]

theorem logRep_truncate {c : Config} {hist : List Record} {l : Log}
    (hrep : LogRep c hist l) (K : Nat) :
    LogRep c hist (logTruncate l K) := by
  obtain ⟨hcfg, hwf, hU, hch, hsegs, hlast⟩ := hrep
  have hbn : ∀ s ∈ l.segments, s.baseOffset ≤ s.nextOffset := by
    intro s hs
    have h1 := ((hsegs s hs).2.2.2).1
    omega
  obtain ⟨pre, suf, heq, hfil⟩ := chained_filter_suffix K l.segments hch hbn
  refine ⟨hcfg, hwf, hU, ?_, ?_, ?_⟩
  · show Chained ((logTruncate l K).segments)
    unfold logTruncate
    dsimp only
    rw [hfil]
    have hch2 := hch
    rw [heq] at hch2
    exact (List.chain'_append.mp hch2).2.1
  · intro s hs
    apply hsegs
    unfold logTruncate at hs
    dsimp only at hs
    exact List.mem_of_mem_filter hs
  · intro s hlast2
    unfold logTruncate at hlast2
    dsimp only at hlast2
    rw [hfil] at hlast2
    apply hlast
    rw [heq, List.getLast?_append, hlast2]
    rfl

theorem logRep_append_ok {c : Config} {hist : List Record} {l : Log} {r : Record}
    {off : Nat} {l2 : Log}
    (hrep : LogRep c hist l)
    (happ : logAppend l r = (.ok off, l2))
    (hU1 : c.segment.initialOffset + hist.length + 1 ≤ U64)
    (hfit : ∀ s ∈ l2.segments, s.store.bytes.length < U64) :
    LogRep c (hist ++ [{ value := r.value, offset := off }]) l2
    ∧ off = c.segment.initialOffset + hist.length := by
  obtain ⟨hcfg, hwf, hU0, hch, hsegs, hlast⟩ := hrep
  cases hg : l.segments.getLast? with
  | none =>
    simp only [logAppend, hg] at happ
    rw [Prod.mk.injEq] at happ
    exact Res.noConfusion happ.1
  | some a =>
    have hne : l.segments ≠ [] := by
      intro h
      rw [h] at hg
      exact Option.noConfusion hg
    have hsome : some a = some (l.segments.getLast hne) :=
      hg.symm.trans (List.getLast?_eq_getLast _ hne)
    have hAeq : l.segments.getLast hne = a := (Option.some.inj hsome).symm
    have hdecomp : l.segments = l.segments.dropLast ++ [a] := by
      conv_lhs => rw [← List.dropLast_append_getLast hne]
      rw [hAeq]
    have hmem_a : a ∈ l.segments := by
      rw [hdecomp]
      simp
    have hlastA : a.nextOffset = c.segment.initialOffset + hist.length := hlast a hg
    obtain ⟨hAcfg, hAinit, hAhi, hArep⟩ := hsegs a hmem_a
    have hAbn : a.baseOffset ≤ a.nextOffset := by
      have h1 := hArep.1
      omega
    rcases hres : segmentAppend a r with ⟨resr, a2⟩
    simp only [logAppend, hg, hres] at happ
    cases resr with
    | err e =>
      dsimp only at happ
      rw [Prod.mk.injEq] at happ
      exact Res.noConfusion happ.1
    | ok off2 =>
      dsimp only at happ
      have hAnext : a.nextOffset < U64 := by
        rw [hlastA]
        omega
      have hwfA : a.config.segment.maxIndexBytes ≤ entWidth * (U32 - 1) := by
        rw [hAcfg]
        exact hwf.1
      have hl2len : (hist ++ [({ value := r.value, offset := off } : Record)]).length
          = hist.length + 1 := by
        simp
      by_cases hmax : segmentIsMaxed a2 = true
      · rw [if_pos hmax] at happ
        rw [Prod.mk.injEq] at happ
        obtain ⟨h1, h2⟩ := happ
        injection h1 with hoffeq
        subst h2
        have hfitA : a2.store.bytes.length < U64 := by
          apply hfit
          show a2 ∈ l.segments.dropLast ++ [a2] ++ [_]
          simp
        obtain ⟨ha2rep, hoff2, ha2base, ha2next, ha2cfg⟩ :=
          segRep_append_ok hArep hres hAnext hfitA hwfA
        have hanext2 : a.nextOffset = off := by
          rw [← hoff2, hoffeq]
        have hoffv : off = c.segment.initialOffset + hist.length := by
          rw [← hanext2, hlastA]
        have hnr : ({ value := r.value, offset := a.nextOffset } : Record)
            = { value := r.value, offset := off } := by
          rw [hanext2]
        rw [hnr] at ha2rep
        have hslice2 : histSlice c.segment.initialOffset
            (hist ++ [{ value := r.value, offset := off }]) a2
            = histSlice c.segment.initialOffset hist a
              ++ [{ value := r.value, offset := off }] := by
          unfold histSlice
          rw [ha2base, ha2next]
          have ht1 : a.nextOffset + 1 - a.baseOffset = (a.nextOffset - a.baseOffset) + 1 := by
            omega
          rw [ht1]
          exact slice_extend hist _ _ _ (by omega)
        have hstable : ∀ s ∈ l.segments.dropLast,
            histSlice c.segment.initialOffset
              (hist ++ [{ value := r.value, offset := off }]) s
            = histSlice c.segment.initialOffset hist s := by
          intro s hs
          have hsm : s ∈ l.segments := by
            rw [hdecomp]
            exact List.mem_append_left _ hs
          obtain ⟨_, hsinit, hshi, hsrep⟩ := hsegs s hsm
          have hsbn : s.baseOffset ≤ s.nextOffset := by
            have h1 := hsrep.1
            omega
          unfold histSlice
          exact slice_append (by omega)
        have hchd := hch
        rw [hdecomp] at hchd
        have hdc := List.chain'_append.mp hchd
        have hch2 : Chained (l.segments.dropLast ++ [a2]) := by
          refine List.chain'_append.mpr ⟨hdc.1, List.chain'_singleton _, ?_⟩
          intro x hx y hy
          simp only [List.head?_cons, Option.mem_def, Option.some.injEq] at hy
          subst hy
          have hb := hdc.2.2 x hx a (by simp)
          rw [ha2base]
          exact hb
        have hfb : (newSegment l.config [] [] (off2 + 1)).baseOffset = off2 + 1 := rfl
        have hfrep := segRep_fresh l.config (off2 + 1)
        have hfnext : (newSegment l.config [] [] (off2 + 1)).nextOffset = off2 + 1 := by
          have h1 := hfrep.1
          rw [hfb] at h1
          simpa using h1
        refine ⟨⟨hcfg, hwf, ?_, ?_, ?_, ?_⟩, hoffv⟩
        · rw [hl2len]
          omega
        · show Chained (l.segments.dropLast ++ [a2] ++ [newSegment l.config [] [] (off2 + 1)])
          refine List.chain'_append.mpr ⟨hch2, List.chain'_singleton _, ?_⟩
          intro x hx y hy
          simp only [List.head?_cons, Option.mem_def, Option.some.injEq] at hy
          subst hy
          rw [List.getLast?_concat, Option.mem_def, Option.some.injEq] at hx
          subst hx
          rw [hfb, ha2next, hoffeq]
          rw [hanext2]
        · intro s hs
          show SegOk c c.segment.initialOffset _ s
          rcases List.mem_append.mp hs with hs1 | hs2
          · rcases List.mem_append.mp hs1 with hs3 | hs4
            · obtain ⟨hc1, hc2, hc3, hc4⟩ :=
                hsegs s (by rw [hdecomp]; exact List.mem_append_left _ hs3)
              refine ⟨hc1, hc2, by rw [hl2len]; omega, ?_⟩
              rw [hstable s hs3]
              exact hc4
            · have hseq : s = a2 := by simpa using hs4
              subst hseq
              refine ⟨ha2cfg.trans hAcfg, by rw [ha2base]; exact hAinit, ?_, ?_⟩
              · rw [ha2next, hlastA, hl2len]
                omega
              · rw [hslice2]
                exact ha2rep
          · have hseq : s = newSegment l.config [] [] (off2 + 1) := by simpa using hs2
            subst hseq
            refine ⟨hcfg, ?_, ?_, ?_⟩
            · rw [hfb, hoffeq, hoffv]
              omega
            · rw [hfnext, hl2len]
              omega
            · have hsl : histSlice c.segment.initialOffset
                  (hist ++ [{ value := r.value, offset := off }])
                  (newSegment l.config [] [] (off2 + 1)) = [] := by
                unfold histSlice
                rw [hfnext, hfb]
                simp
              rw [hsl]
              exact hfrep
        · intro s hlast2
          rw [List.getLast?_concat, Option.some.injEq] at hlast2
          subst hlast2
          rw [hfnext, hl2len]
          omega
      · rw [if_neg hmax] at happ
        rw [Prod.mk.injEq] at happ
        obtain ⟨h1, h2⟩ := happ
        injection h1 with hoffeq
        subst h2
        have hfitA : a2.store.bytes.length < U64 := by
          apply hfit
          show a2 ∈ l.segments.dropLast ++ [a2]
          simp
        obtain ⟨ha2rep, hoff2, ha2base, ha2next, ha2cfg⟩ :=
          segRep_append_ok hArep hres hAnext hfitA hwfA
        have hanext2 : a.nextOffset = off := by
          rw [← hoff2, hoffeq]
        have hoffv : off = c.segment.initialOffset + hist.length := by
          rw [← hanext2, hlastA]
        have hnr : ({ value := r.value, offset := a.nextOffset } : Record)
            = { value := r.value, offset := off } := by
          rw [hanext2]
        rw [hnr] at ha2rep
        have hslice2 : histSlice c.segment.initialOffset
            (hist ++ [{ value := r.value, offset := off }]) a2
            = histSlice c.segment.initialOffset hist a
              ++ [{ value := r.value, offset := off }] := by
          unfold histSlice
          rw [ha2base, ha2next]
          have ht1 : a.nextOffset + 1 - a.baseOffset = (a.nextOffset - a.baseOffset) + 1 := by
            omega
          rw [ht1]
          exact slice_extend hist _ _ _ (by omega)
        have hstable : ∀ s ∈ l.segments.dropLast,
            histSlice c.segment.initialOffset
              (hist ++ [{ value := r.value, offset := off }]) s
            = histSlice c.segment.initialOffset hist s := by
          intro s hs
          have hsm : s ∈ l.segments := by
            rw [hdecomp]
            exact List.mem_append_left _ hs
          obtain ⟨_, hsinit, hshi, hsrep⟩ := hsegs s hsm
          have hsbn : s.baseOffset ≤ s.nextOffset := by
            have h1 := hsrep.1
            omega
          unfold histSlice
          exact slice_append (by omega)
        have hchd := hch
        rw [hdecomp] at hchd
        have hdc := List.chain'_append.mp hchd
        have hch2 : Chained (l.segments.dropLast ++ [a2]) := by
          refine List.chain'_append.mpr ⟨hdc.1, List.chain'_singleton _, ?_⟩
          intro x hx y hy
          simp only [List.head?_cons, Option.mem_def, Option.some.injEq] at hy
          subst hy
          have hb := hdc.2.2 x hx a (by simp)
          rw [ha2base]
          exact hb
        refine ⟨⟨hcfg, hwf, ?_, hch2, ?_, ?_⟩, hoffv⟩
        · rw [hl2len]
          omega
        · intro s hs
          rcases List.mem_append.mp hs with hs3 | hs4
          · obtain ⟨hc1, hc2, hc3, hc4⟩ :=
              hsegs s (by rw [hdecomp]; exact List.mem_append_left _ hs3)
            refine ⟨hc1, hc2, by rw [hl2len]; omega, ?_⟩
            rw [hstable s hs3]
            exact hc4
          · have hseq : s = a2 := by simpa using hs4
            subst hseq
            refine ⟨ha2cfg.trans hAcfg, by rw [ha2base]; exact hAinit, ?_, ?_⟩
            · rw [ha2next, hlastA, hl2len]
              omega
            · rw [hslice2]
              exact ha2rep
        · intro s hlast2
          rw [List.getLast?_concat, Option.some.injEq] at hlast2
          subst hlast2
          rw [ha2next, hlastA, hl2len]
          omega

theorem logRep_append_fail {c : Config} {hist : List Record} {l : Log} {r : Record}
    {e : Err} {l2 : Log}
    (hrep : LogRep c hist l)
    (happ : logAppend l r = (.err e, l2))
    (hfit : ∀ s ∈ l2.segments, s.store.bytes.length < U64) :
    LogRep c hist l2 := by
  cases hg : l.segments.getLast? with
  | none =>
    simp only [logAppend, hg] at happ
    rw [Prod.mk.injEq] at happ
    rw [← happ.2]
    exact hrep
  | some a =>
    obtain ⟨hcfg, hwf, hU0, hch, hsegs, hlast⟩ := hrep
    have hne : l.segments ≠ [] := by
      intro h
      rw [h] at hg
      exact Option.noConfusion hg
    have hsome : some a = some (l.segments.getLast hne) :=
      hg.symm.trans (List.getLast?_eq_getLast _ hne)
    have hAeq : l.segments.getLast hne = a := (Option.some.inj hsome).symm
    have hdecomp : l.segments = l.segments.dropLast ++ [a] := by
      conv_lhs => rw [← List.dropLast_append_getLast hne]
      rw [hAeq]
    have hmem_a : a ∈ l.segments := by
      rw [hdecomp]
      simp
    have hlastA : a.nextOffset = c.segment.initialOffset + hist.length := hlast a hg
    obtain ⟨hAcfg, hAinit, hAhi, hArep⟩ := hsegs a hmem_a
    rcases hres : segmentAppend a r with ⟨resr, a2⟩
    simp only [logAppend, hg, hres] at happ
    cases resr with
    | ok off2 =>
      dsimp only at happ
      by_cases hmax : segmentIsMaxed a2 = true
      · rw [if_pos hmax] at happ
        rw [Prod.mk.injEq] at happ
        exact Res.noConfusion happ.1
      · rw [if_neg hmax] at happ
        rw [Prod.mk.injEq] at happ
        exact Res.noConfusion happ.1
    | err e2 =>
      dsimp only at happ
      rw [Prod.mk.injEq] at happ
      obtain ⟨h1, h2⟩ := happ
      subst h2
      have hfitA : a2.store.bytes.length < U64 := by
        apply hfit
        show a2 ∈ l.segments.dropLast ++ [a2]
        simp
      obtain ⟨ha2rep, ha2base, ha2next, ha2cfg, ha2idx⟩ :=
        segRep_append_fail hArep hres hfitA
      have hsliceA : histSlice c.segment.initialOffset hist a2
          = histSlice c.segment.initialOffset hist a := by
        unfold histSlice
        rw [ha2base, ha2next]
      have hchd := hch
      rw [hdecomp] at hchd
      have hdc := List.chain'_append.mp hchd
      refine ⟨hcfg, hwf, hU0, ?_, ?_, ?_⟩
      · show Chained (l.segments.dropLast ++ [a2])
        refine List.chain'_append.mpr ⟨hdc.1, List.chain'_singleton _, ?_⟩
        intro x hx y hy
        simp only [List.head?_cons, Option.mem_def, Option.some.injEq] at hy
        subst hy
        have hb := hdc.2.2 x hx a (by simp)
        rw [ha2base]
        exact hb
      · intro s hs
        rcases List.mem_append.mp hs with hs3 | hs4
        · exact hsegs s (by rw [hdecomp]; exact List.mem_append_left _ hs3)
        · have hseq : s = a2 := by simpa using hs4
          subst hseq
          refine ⟨ha2cfg.trans hAcfg, by rw [ha2base]; exact hAinit, ?_, ?_⟩
          · rw [ha2next]
            exact hAhi
          · rw [hsliceA]
            exact ha2rep
      · intro s hlast2
        rw [List.getLast?_concat, Option.some.injEq] at hlast2
        subst hlast2
        rw [ha2next]
        exact hlastA

theorem logRep_step {c : Config} {st st2 : Log × List Record}
    (hrep : LogRep c st.2 st.1) (hstep : Step c st st2) :
    LogRep c st2.2 st2.1 := by
  cases hstep with
  | append happ hU hfit => exact (logRep_append_ok hrep happ hU hfit).1
  | appendFail happ hfit => exact logRep_append_fail hrep happ hfit
  | truncate lowest => exact logRep_truncate hrep lowest

theorem reach_logRep {c : Config} {st : Log × List Record} (h : Reach c st) :
    LogRep c st.2 st.1 := by
  induction h with
  | base hwf => exact logRep_init hwf
  | step _ hstep ih => exact logRep_step ih hstep

theorem reach_steps {c : Config} {st st2 : Log × List Record}
    (h : Reach c st) (hs : Steps c st st2) : Reach c st2 := by
  induction hs with
  | refl => exact h
  | tail _ hstep ih => exact ih.step hstep

theorem steps_hist_extends {c : Config} {st st2 : Log × List Record}
    (h : Steps c st st2) : ∃ t, st2.2 = st.2 ++ t := by
  induction h with
  | refl => exact ⟨[], by simp⟩
  | tail _ hstep ih =>
    obtain ⟨t, ht⟩ := ih
    cases hstep with
    | append happ hU hfit =>
      dsimp only at ht ⊢
      exact ⟨t ++ [_], by rw [ht, List.append_assoc]⟩
    | appendFail happ hfit => exact ⟨t, ht⟩
    | truncate lowest => exact ⟨t, ht⟩

theorem logRep_read {c : Config} {hist : List Record} {l : Log}
    (hrep : LogRep c hist l) {off : Nat} {s : Segment}
    (hs : s ∈ l.segments) (h1 : s.baseOffset ≤ off) (h2 : off < s.nextOffset) :
    logRead l off = .ok (hist.getD (off - c.segment.initialOffset) default)
    ∧ (hist.getD (off - c.segment.initialOffset) default).offset = off := by
  obtain ⟨hcfg, hwf, hU0, hch, hsegs, hlast⟩ := hrep
  cases hf : l.segments.find?
      (fun t => decide (t.baseOffset ≤ off) && decide (off < t.nextOffset)) with
  | none =>
    exfalso
    have hno := List.find?_eq_none.mp hf s hs
    simp only [Bool.and_eq_true, decide_eq_true_eq] at hno
    exact hno ⟨h1, h2⟩
  | some s2 =>
    have hp := List.find?_some hf
    simp only [Bool.and_eq_true, decide_eq_true_eq] at hp
    obtain ⟨h1b, h2b⟩ := hp
    have hmem2 := List.mem_of_find?_eq_some hf
    obtain ⟨hscfg, hsinit, hshi, hsrep⟩ := hsegs s2 hmem2
    have hsbn : s2.baseOffset ≤ s2.nextOffset := by
      have := hsrep.1
      omega
    have hread := segRep_read hsrep h1b h2b (by omega)
    have hjlt : off - s2.baseOffset < (histSlice c.segment.initialOffset hist s2).length := by
      have hl1 := hsrep.1
      omega
    have hgd : (histSlice c.segment.initialOffset hist s2).getD (off - s2.baseOffset) default
        = hist.getD (off - c.segment.initialOffset) default := by
      unfold histSlice
      rw [getD_slice hist _ _ _ (by omega)]
      congr 1
      omega
    have hoffeq := (hsrep.2.2.2.2.2.2.2 (off - s2.baseOffset) (by
      have hl1 := hsrep.1
      omega)).1
    constructor
    · show logRead l off = _
      unfold logRead
      rw [hf]
      dsimp only
      rw [hread, hgd]
    · rw [← hgd, hoffeq]
      omega

/-! ### Claim C1: append/read round trip -/

/-- Claim C1: for every record `r` successfully appended via `Log.Append`
returning offset `off` from a reachable log state, any later state obtained by
further appends and truncations in which some segment still covers `off` (no
intervening truncation removed it) answers `Log.Read(off)` with a record whose
payload equals `r`'s payload and whose `offset` field equals `off`. -/
theorem log_append_read_roundtrip {c : Config} {l : Log} {hist : List Record}
    {r : Record} {off : Nat} {l2 : Log} {st3 : Log × List Record}
    (hreach : Reach c (l, hist))
    (happ : logAppend l r = (.ok off, l2))
    (hU : c.segment.initialOffset + hist.length + 1 ≤ U64)
    (hfit : ∀ s ∈ l2.segments, s.store.bytes.length < U64)
    (hsteps : Steps c (l2, hist ++ [{ value := r.value, offset := off }]) st3)
    {s : Segment} (hs : s ∈ st3.1.segments)
    (h1 : s.baseOffset ≤ off) (h2 : off < s.nextOffset) :
    logRead st3.1 off = .ok { value := r.value, offset := off } := by
  have hrep : LogRep c hist l := reach_logRep hreach
  have hoff : off = c.segment.initialOffset + hist.length :=
    (logRep_append_ok hrep happ hU hfit).2
  have hreach3 : Reach c st3 :=
    reach_steps (hreach.step (Step.append happ hU hfit)) hsteps
  have hrep3 := reach_logRep hreach3
  obtain ⟨t, ht⟩ := steps_hist_extends hsteps
  have hread := logRep_read hrep3 hs h1 h2
  have hidx : off - c.segment.initialOffset = hist.length := by omega
  have hgd : st3.2.getD (off - c.segment.initialOffset) default
      = { value := r.value, offset := off } := by
    have ht2 : st3.2 = (hist ++ [{ value := r.value, offset := off }]) ++ t := ht
    rw [ht2, hidx, List.append_assoc]
    rw [List.getD_eq_getElem?_getD, List.getElem?_append_right le_rfl]
    rw [Nat.sub_self, List.singleton_append]
    simp
  rw [hread.1, hgd]

theorem log_append_read_roundtrip_witness :
    logRead logC2 0 = .ok { value := [7, 13], offset := 0 } :=
  @log_append_read_roundtrip cfgA (logInit cfgA) [] recA 0 logC2
    (logC2, [{ value := recA.value, offset := 0 }])
    (Reach.base (by decide)) rfl (by decide) (by decide)
    Relation.ReflTransGen.refl segC2
    (by rw [show logC2.segments = [segC2] from rfl]
        exact List.mem_singleton_self segC2)
    (by decide) (by decide)

/-! ### Claim C4: consecutive segments are chained -/

/-- Claim C4: in every log state reachable from a successful construction by any
sequence of `Append` and `Truncate` operations, any two consecutive segments
`A`, `B` in the ordered segment list satisfy `A.nextOffset = B.baseOffset`. -/
theorem log_segments_chained {c : Config} {st : Log × List Record}
    (h : Reach c st) : Chained st.1.segments :=
  (reach_logRep h).2.2.2.1

theorem log_segments_chained_witness : Chained (logInit cfgA).segments :=
  log_segments_chained (Reach.base (by decide))

theorem setup_dedup_sorted_witness :
    ∃ segs act,
      logSetup cfgA (fun _ => true) (fun _ => []) (fun _ => []) [16, 16, 3, 3]
        = .ok (segs, act)
      ∧ segs.map (fun s => s.baseOffset)
          = (([16, 16, 3, 3] : List Nat).insertionSort (· ≤ ·)).dedup
      ∧ act = segs.getLast?
      ∧ segs ≠ [] :=
  setup_dedup_sorted cfgA (fun _ => []) (fun _ => []) [16, 16, 3, 3]
    (by decide)
    (by
      intro b
      by_cases h3 : b = 3
      · subst h3
        right
        decide
      · by_cases h16 : b = 16
        · subst h16
          right
          decide
        · left
          rw [List.count_eq_zero]
          intro hmem
          simp only [List.mem_cons, List.not_mem_nil, or_false] at hmem
          rcases hmem with h | h | h | h
          · exact h16 h
          · exact h16 h
          · exact h3 h
          · exact h3 h)

end DistLog
